import Mathlib

/-!
Verification of the in-memory geospatial collection engine (Tile38-style).

The development shallowly embeds the Go source:

* the packed variable-length float codec (`appendPacked`, `readPacked`,
  `skipPacked`, `packedSetField`, …) from the `item` package;
* the item structure (id + object + field storage, packed or unpacked);
* the collection façade (`Collection.Set`, `Collection.Delete`,
  `Collection.SetField`, `Collection.SetFields`, scans, spatial queries).

Finite IEEE binary floating-point values are embedded as exact rationals
(`ℚ`): every finite float is an exact rational, and every arithmetic
operation the embedded code performs on them (comparison, truncation,
negation) is exact, so `ℚ` together with the representability predicate
`finFloat` below models the float types faithfully.  Bit-level float
payloads are produced by `toBits`/`ofBits`, the standard IEEE interchange
packing (sign/exponent/fraction), stored little-endian as the spec pins
down for portable reimplementations.
-/

/-- Fueled floor-log2 helper: `log2fuel fuel n` is `⌊log₂ n⌋` whenever
`n ≤ fuel`.  Written with structural fuel so that it reduces inside the
kernel (concrete evaluation by `decide`). -/
def log2fuel : Nat → Nat → Nat
  | 0, _ => 0
  | fuel + 1, n => if 2 ≤ n then log2fuel fuel (n / 2) + 1 else 0

/-- Floor of the base-2 logarithm (`nlog2 0 = 0`). -/
def nlog2 (n : Nat) : Nat := log2fuel n n

theorem log2fuel_bracket (fuel : Nat) : ∀ n : Nat, n ≤ fuel → 1 ≤ n →
    2 ^ log2fuel fuel n ≤ n ∧ n < 2 ^ (log2fuel fuel n + 1) := by
  induction fuel with
  | zero => intro n hn h1; omega
  | succ f ih =>
    intro n hn h1
    by_cases h2 : 2 ≤ n
    · have hdiv : n / 2 ≤ f := by omega
      have hd1 : 1 ≤ n / 2 := by omega
      have ⟨hlo, hhi⟩ := ih (n / 2) hdiv hd1
      simp only [log2fuel, if_pos h2]
      constructor
      · calc 2 ^ (log2fuel f (n / 2) + 1) = 2 ^ log2fuel f (n / 2) * 2 := by ring
        _ ≤ n / 2 * 2 := by omega
        _ ≤ n := by omega
      · calc n < n / 2 * 2 + 2 := by omega
        _ ≤ 2 ^ (log2fuel f (n / 2) + 1) * 2 := by omega
        _ = 2 ^ (log2fuel f (n / 2) + 1 + 1) := by ring
    · simp only [log2fuel, if_neg h2]
      omega

theorem nlog2_bracket (n : Nat) (h1 : 1 ≤ n) :
    2 ^ nlog2 n ≤ n ∧ n < 2 ^ (nlog2 n + 1) :=
  log2fuel_bracket n n le_rfl h1

theorem nlog2_unique (n L : Nat) (hlo : 2 ^ L ≤ n) (hhi : n < 2 ^ (L + 1)) :
    nlog2 n = L := by
  have h1 : 1 ≤ n := le_trans (Nat.one_le_two_pow) hlo
  have ⟨blo, bhi⟩ := nlog2_bracket n h1
  rcases lt_trichotomy (nlog2 n) L with h | h | h
  · have hle : nlog2 n + 1 ≤ L := h
    have := Nat.pow_le_pow_right (by omega : 1 ≤ 2) hle
    omega
  · exact h
  · have hle : L + 1 ≤ nlog2 n := h
    have := Nat.pow_le_pow_right (by omega : 1 ≤ 2) hle
    omega

/-- Little-endian byte expansion: the `k` low-order bytes of `b`. -/
def leBytes : Nat → Nat → List Nat
  | 0, _ => []
  | k + 1, b => (b % 256) :: leBytes k (b / 256)

/-- Reassemble a little-endian byte list into a natural number. -/
def joinLE : List Nat → Nat
  | [] => 0
  | x :: xs => x + 256 * joinLE xs

theorem leBytes_length (k b : Nat) : (leBytes k b).length = k := by
  induction k generalizing b with
  | zero => rfl
  | succ k ih => simp [leBytes, ih]

theorem joinLE_leBytes (k b : Nat) (h : b < 256 ^ k) :
    joinLE (leBytes k b) = b := by
  induction k generalizing b with
  | zero => simp at h; simp [leBytes, joinLE, h]
  | succ k ih =>
    have hdiv : b / 256 < 256 ^ k := by
      have : b < 256 ^ k * 256 := by
        calc b < 256 ^ (k + 1) := h
        _ = 256 ^ k * 256 := by ring
      exact Nat.div_lt_of_lt_mul (by omega)
    simp [leBytes, joinLE, ih (b / 256) hdiv, Nat.mod_add_div' b 256]
    omega

/-- Scale exponent of a binary interchange format with `F` fraction bits and
`E` exponent bits: the least positive (subnormal) value is `2 ^ (-(scaleExp F E))`. -/
def scaleExp (F E : Nat) : Nat := 2 ^ (E - 1) - 2 + F

/-- Integer mantissa of `q` at full scale: `|q| * 2 ^ scaleExp` as a natural,
exact whenever `q.den ∣ 2 ^ scaleExp`. -/
def natMantissa (F E : Nat) (q : ℚ) : Nat :=
  q.num.natAbs * (2 ^ scaleExp F E / q.den)

/-- Representability of `q` as a finite IEEE value with `F` fraction bits and
`E` exponent bits: the denominator divides the full scale, the scaled mantissa
does not exceed the largest finite value, and its trailing-zero count is large
enough that the significand fits in `F + 1` bits. -/
def finFloat (F E : Nat) (q : ℚ) : Bool :=
  q == 0 ||
    (2 ^ scaleExp F E % q.den == 0 &&
      (natMantissa F E q ≤ (2 ^ (F + 1) - 1) * 2 ^ (2 ^ E - 3) &&
        natMantissa F E q % 2 ^ (nlog2 (natMantissa F E q) - F) == 0))

/-- IEEE interchange bit pattern (sign then exponent then fraction field) of a
nonzero representable `q`; junk on non-representable input.  The first branch
covers subnormals and the least normal binade (exponent field 0 or 1), where
the bit pattern below the sign is the scaled mantissa itself. -/
def toBits (F E : Nat) (q : ℚ) : Nat :=
  if natMantissa F E q < 2 ^ (F + 1) then
    (if q < 0 then 1 else 0) * 2 ^ (E + F) + natMantissa F E q
  else
    (if q < 0 then 1 else 0) * 2 ^ (E + F)
      + (nlog2 (natMantissa F E q) - F + 1) * 2 ^ F
      + (natMantissa F E q / 2 ^ (nlog2 (natMantissa F E q) - F) - 2 ^ F)

/-- Magnitude of a finite IEEE interchange bit pattern (subnormal when the
exponent field is zero, normal otherwise). -/
def ofBitsMag (F E : Nat) (b : Nat) : ℚ :=
  if b % 2 ^ (E + F) / 2 ^ F = 0 then
    ((b % 2 ^ (E + F) % 2 ^ F : Nat) : ℚ) / 2 ^ scaleExp F E
  else
    ((2 ^ F + b % 2 ^ (E + F) % 2 ^ F : Nat) : ℚ)
      * 2 ^ (b % 2 ^ (E + F) / 2 ^ F - 1) / 2 ^ scaleExp F E

/-- Rational value of a finite IEEE interchange bit pattern. -/
def ofBits (F E : Nat) (b : Nat) : ℚ :=
  if b / 2 ^ (E + F) = 1 then -ofBitsMag F E b else ofBitsMag F E b

theorem finFloat_spec (F E : Nat) (q : ℚ) (h : finFloat F E q = true) (h0 : q ≠ 0) :
    q.den ∣ 2 ^ scaleExp F E ∧
      natMantissa F E q ≤ (2 ^ (F + 1) - 1) * 2 ^ (2 ^ E - 3) ∧
      natMantissa F E q % 2 ^ (nlog2 (natMantissa F E q) - F) = 0 := by
  simp only [finFloat, Bool.or_eq_true, beq_iff_eq, Bool.and_eq_true,
    decide_eq_true_eq] at h
  rcases h with h | ⟨hden, hle, hmod⟩
  · exact absurd h h0
  · exact ⟨Nat.dvd_of_mod_eq_zero hden, hle, hmod⟩

theorem natMantissa_cast (F E : Nat) (q : ℚ) (hden : q.den ∣ 2 ^ scaleExp F E) :
    (natMantissa F E q : ℚ) = |q| * 2 ^ scaleExp F E := by
  have hd0 : (q.den : ℚ) ≠ 0 := by
    exact_mod_cast q.den_nz
  have habs : |q| = (q.num.natAbs : ℚ) / (q.den : ℚ) := by
    rcases le_or_lt 0 q.num with hn | hn
    · rw [abs_of_nonneg (Rat.num_nonneg.mp hn)]
      conv_lhs => rw [← Rat.num_div_den q]
      congr 1
      rw [Int.cast_natAbs]
      exact_mod_cast (abs_of_nonneg hn).symm
    · rw [abs_of_neg (Rat.num_neg.mp hn)]
      conv_lhs => rw [← Rat.num_div_den q]
      rw [← neg_div]
      congr 1
      rw [Int.cast_natAbs]
      exact_mod_cast (abs_of_nonpos (le_of_lt hn)).symm
  have hcast : ((2 ^ scaleExp F E / q.den : Nat) : ℚ) = (2 ^ scaleExp F E : ℚ) / (q.den : ℚ) := by
    rw [Nat.cast_div hden hd0]
    norm_num
  unfold natMantissa
  push_cast [hcast]
  rw [habs]
  field_simp

theorem natMantissa_pos (F E : Nat) (q : ℚ) (hden : q.den ∣ 2 ^ scaleExp F E) (h0 : q ≠ 0) :
    1 ≤ natMantissa F E q := by
  have h1 : 1 ≤ q.num.natAbs := by
    have := Rat.num_ne_zero.mpr h0
    omega
  have h2 : 1 ≤ 2 ^ scaleExp F E / q.den := by
    have hdpos : 0 < q.den := q.pos
    have := Nat.le_of_dvd (by positivity) hden
    exact (Nat.one_le_div_iff hdpos).mpr this
  calc 1 = 1 * 1 := by ring
  _ ≤ q.num.natAbs * (2 ^ scaleExp F E / q.den) := Nat.mul_le_mul h1 h2
  _ = natMantissa F E q := rfl


theorem split_high (P s r : Nat) (hP : 0 < P) (hr : r < P) :
    (s * P + r) / P = s ∧ (s * P + r) % P = r := by
  constructor
  · rw [mul_comm, Nat.mul_add_div hP, Nat.div_eq_of_lt hr]
    omega
  · rw [mul_comm, Nat.mul_add_mod, Nat.mod_eq_of_lt hr]

theorem toBits_large_facts (F E : Nat) (hE : 1 ≤ E) (q : ℚ) (h : finFloat F E q = true)
    (h0 : q ≠ 0) (hbig : 2 ^ (F + 1) ≤ natMantissa F E q) :
    F + 1 ≤ nlog2 (natMantissa F E q) ∧
      natMantissa F E q / 2 ^ (nlog2 (natMantissa F E q) - F)
          * 2 ^ (nlog2 (natMantissa F E q) - F) = natMantissa F E q ∧
      2 ^ F ≤ natMantissa F E q / 2 ^ (nlog2 (natMantissa F E q) - F) ∧
      natMantissa F E q / 2 ^ (nlog2 (natMantissa F E q) - F) < 2 ^ F + 2 ^ F ∧
      nlog2 (natMantissa F E q) - F + 1 ≤ 2 ^ E - 2 ∧
      (nlog2 (natMantissa F E q) - F + 1) * 2 ^ F
          + (natMantissa F E q / 2 ^ (nlog2 (natMantissa F E q) - F) - 2 ^ F)
        < 2 ^ (E + F) := by
  obtain ⟨hden, hle, hmod⟩ := finFloat_spec F E q h h0
  have hn1 : 1 ≤ natMantissa F E q := natMantissa_pos F E q hden h0
  obtain ⟨hblo, hbhi⟩ := nlog2_bracket (natMantissa F E q) hn1
  have hLF : F + 1 ≤ nlog2 (natMantissa F E q) := by
    by_contra hc
    push_neg at hc
    have hp : 2 ^ (nlog2 (natMantissa F E q) + 1) ≤ 2 ^ (F + 1) :=
      Nat.pow_le_pow_right (by omega) (by omega)
    omega
  have hdvd : 2 ^ (nlog2 (natMantissa F E q) - F) ∣ natMantissa F E q :=
    Nat.dvd_of_mod_eq_zero hmod
  have hexact := Nat.div_mul_cancel hdvd
  have hsplit : 2 ^ (nlog2 (natMantissa F E q) + 1)
      = (2 ^ F + 2 ^ F) * 2 ^ (nlog2 (natMantissa F E q) - F) := by
    have h1 : (2:Nat) ^ F + 2 ^ F = 2 ^ (F + 1) := by rw [pow_succ]; ring
    rw [h1, ← pow_add]
    congr 1
    omega
  have hsplit2 : (2:Nat) ^ nlog2 (natMantissa F E q)
      = 2 ^ F * 2 ^ (nlog2 (natMantissa F E q) - F) := by
    rw [← pow_add]
    congr 1
    omega
  have hppos : (0:Nat) < 2 ^ (nlog2 (natMantissa F E q) - F) := by positivity
  have hmlt : natMantissa F E q / 2 ^ (nlog2 (natMantissa F E q) - F) < 2 ^ F + 2 ^ F := by
    apply Nat.div_lt_of_lt_mul
    rw [mul_comm, ← hsplit]
    exact hbhi
  have hmge : 2 ^ F ≤ natMantissa F E q / 2 ^ (nlog2 (natMantissa F E q) - F) := by
    apply (Nat.le_div_iff_mul_le hppos).mpr
    rw [← hsplit2]
    exact hblo
  have hfld : nlog2 (natMantissa F E q) - F + 1 ≤ 2 ^ E - 2 := by
    rcases Nat.lt_or_ge E 2 with hE2 | hE2
    · have hE1 : E = 1 := by omega
      subst hE1
      have hone : (2:Nat) ^ (2 ^ 1 - 3) = 1 := by norm_num
      rw [hone, mul_one] at hle
      omega
    · have h4 : (4:Nat) ≤ 2 ^ E := by
        calc (4:Nat) = 2 ^ 2 := by norm_num
        _ ≤ 2 ^ E := Nat.pow_le_pow_right (by omega) hE2
      have hpos : (0:Nat) < 2 ^ (2 ^ E - 3) := by positivity
      have h5 : ((2:Nat) ^ (F + 1) - 1) * 2 ^ (2 ^ E - 3) < 2 ^ (F + 1) * 2 ^ (2 ^ E - 3) :=
        (Nat.mul_lt_mul_right hpos).mpr (by omega)
      have h6 : (2:Nat) ^ (F + 1) * 2 ^ (2 ^ E - 3) = 2 ^ (F + 1 + (2 ^ E - 3)) :=
        (pow_add 2 (F + 1) (2 ^ E - 3)).symm
      have h7 : nlog2 (natMantissa F E q) < F + 1 + (2 ^ E - 3) := by
        by_contra hc
        push_neg at hc
        have := Nat.pow_le_pow_right (show 1 ≤ 2 by omega) hc
        omega
      omega
  refine ⟨hLF, hexact, hmge, hmlt, hfld, ?_⟩
  have hA : (nlog2 (natMantissa F E q) - F + 1) * 2 ^ F ≤ (2 ^ E - 2) * 2 ^ F :=
    Nat.mul_le_mul_right _ hfld
  have h2E : (2:Nat) ≤ 2 ^ E := by
    calc (2:Nat) = 2 ^ 1 := by norm_num
    _ ≤ 2 ^ E := Nat.pow_le_pow_right (by omega) hE
  have h3 : ((2:Nat) ^ E - 2 + 1) * 2 ^ F = (2 ^ E - 2) * 2 ^ F + 2 ^ F := by ring
  have h2 : ((2:Nat) ^ E - 2 + 1) * 2 ^ F ≤ 2 ^ E * 2 ^ F :=
    Nat.mul_le_mul_right _ (by omega)
  have h4 : (2:Nat) ^ E * 2 ^ F = 2 ^ (E + F) := (pow_add 2 E F).symm
  omega

theorem toBits_lt (F E : Nat) (hE : 1 ≤ E) (q : ℚ) (h : finFloat F E q = true) (h0 : q ≠ 0) :
    toBits F E q < 2 ^ (1 + E + F) := by
  have hP : (2:Nat) ^ (1 + E + F) = 2 ^ (E + F) * 2 := by
    rw [show 1 + E + F = E + F + 1 by omega, pow_succ]
  have hs : (if q < 0 then (1:Nat) else 0) * 2 ^ (E + F) ≤ 2 ^ (E + F) := by
    split <;> simp
  unfold toBits
  by_cases hsmall : natMantissa F E q < 2 ^ (F + 1)
  · rw [if_pos hsmall]
    have h1 : (2:Nat) ^ (F + 1) ≤ 2 ^ (E + F) := Nat.pow_le_pow_right (by omega) (by omega)
    omega
  · rw [if_neg hsmall]
    obtain ⟨hLF, hexact, hmge, hmlt, hfld, hpay⟩ :=
      toBits_large_facts F E hE q h h0 (by omega)
    omega

theorem ofBits_toBits (F E : Nat) (hE : 1 ≤ E) (q : ℚ)
    (h : finFloat F E q = true) (h0 : q ≠ 0) :
    ofBits F E (toBits F E q) = q := by
  obtain ⟨hden, hle, hmod⟩ := finFloat_spec F E q h h0
  have hcast := natMantissa_cast F E q hden
  have hPpos : (0:Nat) < 2 ^ (E + F) := by positivity
  have hFpos : (0:Nat) < 2 ^ F := by positivity
  have hmagq : ((natMantissa F E q : Nat) : ℚ) / 2 ^ scaleExp F E = |q| := by
    rw [hcast]
    have : ((2:ℚ) ^ scaleExp F E) ≠ 0 := by positivity
    field_simp
  have h2F : (2:Nat) ^ (F + 1) = 2 ^ F * 2 := pow_succ 2 F
  have key : ofBitsMag F E (toBits F E q) = |q| ∧
      toBits F E q / 2 ^ (E + F) = (if q < 0 then 1 else 0) := by
    by_cases hsmall : natMantissa F E q < 2 ^ (F + 1)
    · have hnP : natMantissa F E q < 2 ^ (E + F) := by
        have h1 : (2:Nat) ^ (F + 1) ≤ 2 ^ (E + F) := Nat.pow_le_pow_right (by omega) (by omega)
        omega
      have hb : toBits F E q
          = (if q < 0 then 1 else 0) * 2 ^ (E + F) + natMantissa F E q := by
        unfold toBits
        rw [if_pos hsmall]
      obtain ⟨hdivP, hmodP⟩ :=
        split_high (2 ^ (E + F)) (if q < 0 then 1 else 0) (natMantissa F E q) hPpos hnP
      refine ⟨?_, by rw [hb]; exact hdivP⟩
      unfold ofBitsMag
      rw [hb, hmodP]
      by_cases hlt : natMantissa F E q < 2 ^ F
      · rw [if_pos (Nat.div_eq_of_lt hlt), Nat.mod_eq_of_lt hlt]
        exact hmagq
      · push_neg at hlt
        have hshape : natMantissa F E q = 1 * 2 ^ F + (natMantissa F E q - 2 ^ F) := by omega
        obtain ⟨hdiv1, hmod1⟩ :=
          split_high (2 ^ F) 1 (natMantissa F E q - 2 ^ F) hFpos (by omega)
        have hfld1 : natMantissa F E q / 2 ^ F = 1 := by rw [hshape]; exact hdiv1
        have hfr : natMantissa F E q % 2 ^ F = natMantissa F E q - 2 ^ F := by
          conv_lhs => rw [hshape]
          exact hmod1
        rw [if_neg (by rw [hfld1]; omega), hfld1, hfr]
        have hnn : 2 ^ F + (natMantissa F E q - 2 ^ F) = natMantissa F E q := by omega
        rw [hnn]
        norm_num
        exact hmagq
    · push_neg at hsmall
      obtain ⟨hLF, hexact, hmge, hmlt, hfld, hpay⟩ :=
        toBits_large_facts F E hE q h h0 hsmall
      have hb : toBits F E q = (if q < 0 then 1 else 0) * 2 ^ (E + F)
          + ((nlog2 (natMantissa F E q) - F + 1) * 2 ^ F
            + (natMantissa F E q / 2 ^ (nlog2 (natMantissa F E q) - F) - 2 ^ F)) := by
        unfold toBits
        rw [if_neg (by omega)]
        ring
      obtain ⟨hdivP, hmodP⟩ :=
        split_high (2 ^ (E + F)) (if q < 0 then 1 else 0) _ hPpos hpay
      have hfr : natMantissa F E q / 2 ^ (nlog2 (natMantissa F E q) - F) - 2 ^ F < 2 ^ F := by
        omega
      obtain ⟨hdivF, hmodF⟩ := split_high (2 ^ F) (nlog2 (natMantissa F E q) - F + 1)
        (natMantissa F E q / 2 ^ (nlog2 (natMantissa F E q) - F) - 2 ^ F) hFpos hfr
      refine ⟨?_, by rw [hb]; exact hdivP⟩
      unfold ofBitsMag
      rw [hb, hmodP, hdivF, hmodF]
      rw [if_neg (by omega)]
      have hm2 : 2 ^ F + (natMantissa F E q / 2 ^ (nlog2 (natMantissa F E q) - F) - 2 ^ F)
          = natMantissa F E q / 2 ^ (nlog2 (natMantissa F E q) - F) := by omega
      rw [hm2]
      have hexp : nlog2 (natMantissa F E q) - F + 1 - 1 = nlog2 (natMantissa F E q) - F := by
        omega
      rw [hexp]
      rw [show ((natMantissa F E q / 2 ^ (nlog2 (natMantissa F E q) - F) : Nat) : ℚ)
            * (2:ℚ) ^ (nlog2 (natMantissa F E q) - F)
          = ((natMantissa F E q : Nat) : ℚ) from by
        conv_rhs => rw [← hexact]
        push_cast
        ring]
      exact hmagq
  obtain ⟨hmag, hsgn⟩ := key
  unfold ofBits
  rw [hsgn, hmag]
  by_cases hq : q < 0
  · simp only [if_pos hq, if_true]
    rw [abs_of_neg hq]
    ring
  · simp only [if_neg hq]
    rw [if_neg (by omega)]
    exact abs_of_nonneg (le_of_not_lt hq)

/-!
The packed codec, embedded from `appendPacked` / `readPacked` / `skipPacked`.

Byte streams are `List Nat` (each entry a byte value).  Go bit operations on
the header byte are written arithmetically: for a byte `b`, `b >> 5` is
`b / 32`, `b & 0xF` is `b % 16`, and `b & 0x10 != 0` is `b / 16 % 2 = 1`;
`kind<<5 | signed | payload` combines disjoint bit ranges and is written as
addition.  IEEE float payloads are stored little-endian (the source stores
native byte order; the spec fixes little-endian for portable
reimplementations).
-/

/-- Truncation of a rational toward zero, as Go float-to-int conversion does
for in-range values. -/
def qtrunc (q : ℚ) : ℤ :=
  if 0 ≤ q.num then ((q.num.toNat / q.den : Nat) : ℤ)
  else -(((-q.num).toNat / q.den : Nat) : ℤ)

/-- Go `int64(f64)`: truncation toward zero; an out-of-range value produces
the x86-64 integer-indefinite result `-2^63` (the Go spec leaves it
implementation-dependent; this models the amd64 behavior of the source). -/
def goInt64 (q : ℚ) : ℤ :=
  if qtrunc q < -(2 ^ 63) ∨ 2 ^ 63 ≤ qtrunc q then -(2 ^ 63) else qtrunc q

/-- Two's-complement wraparound of an integer into the int64 range, as Go
`int64` arithmetic overflows. -/
def wrap64 (x : ℤ) : ℤ := (x + 2 ^ 63) % 2 ^ 64 - 2 ^ 63

/-- Go `byte(x)` on an `int64`: the low eight bits. -/
def byteOfInt (x : ℤ) : Nat := (x % 256).toNat

/-- Sign nibble of the header byte: Go sets `signed = 16` for negative whole
numbers. -/
def signedBit (z : ℤ) : Nat := if z < 0 then 16 else 0

/-- The magnitude Go works with after `if i64 < 0 { i64 *= -1 }`: int64
negation with wraparound (so `-2^63` stays `-2^63`). -/
def magOf (z : ℤ) : ℤ := if z < 0 then wrap64 (-z) else z

/-- The whole-number branch of `appendPacked`: the four integer size classes
(kinds 0..3, big-endian payload).  Returns `none` when the magnitude exceeds
`maxInt29` and the source falls through to the float formats. -/
def packWhole (dst : List Nat) (z : ℤ) : Option (List Nat) :=
  if magOf z ≤ 15 then
    some (dst ++ [signedBit z + byteOfInt (magOf z)])
  else if magOf z ≤ 4095 then
    some (dst ++ [32 + signedBit z + byteOfInt (Int.fdiv (magOf z) 256), byteOfInt (magOf z)])
  else if magOf z ≤ 1048575 then
    some (dst ++ [64 + signedBit z + byteOfInt (Int.fdiv (magOf z) 65536),
      byteOfInt (Int.fdiv (magOf z) 256), byteOfInt (magOf z)])
  else if magOf z ≤ 268435455 then
    some (dst ++ [96 + signedBit z + byteOfInt (Int.fdiv (magOf z) 16777216),
      byteOfInt (Int.fdiv (magOf z) 65536), byteOfInt (Int.fdiv (magOf z) 256),
      byteOfInt (magOf z)])
  else none

/-- `appendPacked dst f` encodes `f` after `dst`.  The nested `float32` /
`float16` casts with their exact-round-trip guards (`f64 == float64(f32)`,
`f32 == f16.Float32()`) succeed exactly when the value is representable in
the narrower format, which is the `finFloat` test. -/
def appendPacked (dst : List Nat) (f : ℚ) : List Nat :=
  if f = 0 then dst ++ [0]
  else
    match (if f = ((goInt64 f : ℤ) : ℚ) then packWhole dst (goInt64 f) else none) with
    | some out => out
    | none =>
      if finFloat 23 8 f then
        if finFloat 10 5 f then dst ++ [4 * 32] ++ leBytes 2 (toBits 10 5 f)
        else dst ++ [5 * 32] ++ leBytes 4 (toBits 23 8 f)
      else dst ++ [6 * 32] ++ leBytes 8 (toBits 52 11 f)

/-- Big-endian reassembly of a whole-number payload: the header's low nibble
followed by the trailing payload bytes. -/
def intPayload (hi : Nat) (bs : List Nat) : Nat :=
  bs.foldl (fun acc b => acc * 256 + b) hi

/-- `readPacked data` returns the remaining bytes and the decoded first value;
on empty input `([], 0)`.  Out-of-range reads on malformed input (the source
would fault) read as zero via `take`; kind 7 (the source panics) is modeled as
end-of-data. -/
def readPacked (data : List Nat) : List Nat × ℚ :=
  match data with
  | [] => ([], 0)
  | b :: rest =>
    if b = 0 then (rest, 0)
    else if b / 32 ≤ 3 then
      (data.drop (b / 32 + 1),
        (if b / 16 % 2 = 1 then -1 else 1) * ((intPayload (b % 16) (rest.take (b / 32)) : Nat) : ℚ))
    else if b / 32 = 4 then (data.drop 3, ofBits 10 5 (joinLE (rest.take 2)))
    else if b / 32 = 5 then (data.drop 5, ofBits 23 8 (joinLE (rest.take 4)))
    else if b / 32 = 6 then (data.drop 9, ofBits 52 11 (joinLE (rest.take 8)))
    else ([], 0)

/-- Number of bytes an encoded value occupies, from its header byte. -/
def stepSize (b : Nat) : Nat :=
  if b / 32 < 4 then b / 32 + 1
  else if b / 32 = 4 then 3
  else if b / 32 = 5 then 5
  else 9

theorem stepSize_pos (b : Nat) : 1 ≤ stepSize b := by
  unfold stepSize
  split
  · omega
  · split
    · omega
    · split <;> omega

/-- `skipPacked data count` drops up to `count` encoded values, returning the
remaining bytes and the number of values actually skipped. -/
def skipPacked (data : List Nat) (count : Nat) : List Nat × Nat :=
  match data, count with
  | [], _ => ([], 0)
  | d :: rest, 0 => (d :: rest, 0)
  | b :: rest, count + 1 =>
    ((skipPacked ((b :: rest).drop (stepSize b)) count).1,
      (skipPacked ((b :: rest).drop (stepSize b)) count).2 + 1)
termination_by data.length
decreasing_by
  simp only [List.length_drop, List.length_cons]
  have := stepSize_pos b
  omega

/-- Number of encoded values in a packed byte stream. -/
def countPacked : List Nat → Nat
  | [] => 0
  | hd :: tl => countPacked ((hd :: tl).drop (stepSize hd)) + 1
termination_by data => data.length
decreasing_by
  simp only [List.length_drop, List.length_cons]
  have := stepSize_pos x
  omega

theorem wrap64_eq (x : ℤ) (h1 : -(2 ^ 63) ≤ x) (h2 : x < 2 ^ 63) : wrap64 x = x := by
  unfold wrap64
  have := Int.emod_eq_of_lt (a := x + 2 ^ 63) (b := 2 ^ 64) (by omega) (by omega)
  omega

theorem goInt64_range (q : ℚ) : -(2 ^ 63) ≤ goInt64 q ∧ goInt64 q < 2 ^ 63 := by
  unfold goInt64
  split <;> omega

theorem byteOfInt_ofNat (M : Nat) : byteOfInt (M : ℤ) = M % 256 := by
  unfold byteOfInt
  omega

theorem fdiv_ofNat (M k : Nat) : Int.fdiv (M : ℤ) (k : ℤ) = ((M / k : Nat) : ℤ) := by
  rw [Int.fdiv_eq_tdiv (by positivity) (by positivity)]
  rfl

theorem header_facts (K S t : Nat) (_hK : K ≤ 3) (hS : S = 0 ∨ S = 16) (ht : t < 16) :
    (K * 32 + S + t) / 32 = K ∧ (K * 32 + S + t) % 16 = t ∧
      (K * 32 + S + t) / 16 % 2 = S / 16 := by
  omega

theorem magOf_natAbs (z : ℤ) (hne : z ≠ -(2 ^ 63)) (hlo : -(2 ^ 63) ≤ z) (hhi : z < 2 ^ 63) :
    magOf z = (z.natAbs : ℤ) := by
  unfold magOf
  split
  · rw [wrap64_eq (-z) (by omega) (by omega)]
    omega
  · omega

theorem signedBit_cases (z : ℤ) : signedBit z = 0 ∨ signedBit z = 16 := by
  unfold signedBit
  split <;> omega

theorem sign_value_cast (z : ℤ) :
    (if signedBit z / 16 % 2 = 1 then (-1 : ℚ) else 1) * ((z.natAbs : Nat) : ℚ) = (z : ℚ) := by
  unfold signedBit
  by_cases hz : z < 0
  · rw [if_pos hz]
    norm_num
    push_cast [Int.cast_natAbs]
    rw [abs_of_neg (show (z : ℚ) < 0 from by exact_mod_cast hz)]
    ring
  · rw [if_neg hz]
    norm_num
    push_cast [Int.cast_natAbs]
    rw [abs_of_nonneg (show (0 : ℚ) ≤ (z : ℚ) from by exact_mod_cast not_lt.mp hz)]

theorem fdiv256 (M : Nat) : Int.fdiv (M : ℤ) 256 = ((M / 256 : Nat) : ℤ) := by
  rw [Int.fdiv_eq_tdiv (by positivity) (by norm_num)]
  rfl

theorem fdiv65536 (M : Nat) : Int.fdiv (M : ℤ) 65536 = ((M / 65536 : Nat) : ℤ) := by
  rw [Int.fdiv_eq_tdiv (by positivity) (by norm_num)]
  rfl

theorem fdiv16777216 (M : Nat) : Int.fdiv (M : ℤ) 16777216 = ((M / 16777216 : Nat) : ℤ) := by
  rw [Int.fdiv_eq_tdiv (by positivity) (by norm_num)]
  rfl

theorem readPacked_int (K S t : Nat) (tail : List Nat) (hK : K ≤ 3) (hS : S = 0 ∨ S = 16)
    (ht : t < 16) (hlen : tail.length = K) (hne0 : 1 ≤ K * 32 + S + t) :
    readPacked ((K * 32 + S + t) :: tail)
      = ([], (if S / 16 % 2 = 1 then (-1 : ℚ) else 1) * ((intPayload t tail : Nat) : ℚ)) := by
  obtain ⟨hdiv, hmod, hsgn⟩ := header_facts K S t hK hS ht
  simp only [readPacked]
  rw [if_neg (show ¬(K * 32 + S + t = 0) by omega), hdiv, hmod, hsgn]
  rw [if_pos hK]
  rw [List.drop_succ_cons, List.drop_eq_nil_of_le (by omega), List.take_of_length_le (by omega)]
  rcases hS with h | h <;> subst h <;> norm_num

theorem readPacked_packWhole (z : ℤ) (h0 : z ≠ 0) (hne : z ≠ -(2 ^ 63))
    (hlo : -(2 ^ 63) ≤ z) (hhi : z < 2 ^ 63) (out : List Nat)
    (hp : packWhole [] z = some out) : readPacked out = ([], (z : ℚ)) := by
  have hm := magOf_natAbs z hne hlo hhi
  have hM1 : 1 ≤ z.natAbs := by omega
  have hsv := sign_value_cast z
  have hsc := signedBit_cases z
  unfold packWhole at hp
  rw [hm] at hp
  simp only [fdiv256, fdiv65536, fdiv16777216, byteOfInt_ofNat] at hp
  by_cases h15 : z.natAbs ≤ 15
  · rw [if_pos (show ((z.natAbs : ℕ) : ℤ) ≤ 15 by exact_mod_cast h15)] at hp
    rw [List.nil_append] at hp
    injection hp with hp
    rw [← hp]
    rw [show z.natAbs % 256 = z.natAbs from by omega]
    have hri := readPacked_int 0 (signedBit z) z.natAbs [] (by omega) hsc (by omega) rfl
      (by omega)
    norm_num at hri
    rw [show signedBit z + z.natAbs = 0 * 32 + signedBit z + z.natAbs from by omega]
    rw [readPacked_int 0 (signedBit z) z.natAbs [] (by omega) hsc (by omega) rfl (by omega)]
    rw [show intPayload z.natAbs [] = z.natAbs from rfl]
    rw [hsv]
  · rw [if_neg (show ¬ ((z.natAbs : ℕ) : ℤ) ≤ 15 by exact_mod_cast h15)] at hp
    by_cases h4095 : z.natAbs ≤ 4095
    · rw [if_pos (show ((z.natAbs : ℕ) : ℤ) ≤ 4095 by exact_mod_cast h4095)] at hp
      rw [List.nil_append] at hp
      injection hp with hp
      rw [← hp]
      rw [show z.natAbs / 256 % 256 = z.natAbs / 256 from by omega]
      rw [show 32 + signedBit z + z.natAbs / 256
          = 1 * 32 + signedBit z + z.natAbs / 256 from by omega]
      rw [readPacked_int 1 (signedBit z) (z.natAbs / 256) [z.natAbs % 256] (by omega) hsc
        (by omega) rfl (by omega)]
      rw [show intPayload (z.natAbs / 256) [z.natAbs % 256] = z.natAbs from by
        simp [intPayload]
        omega]
      rw [hsv]
    · rw [if_neg (show ¬ ((z.natAbs : ℕ) : ℤ) ≤ 4095 by exact_mod_cast h4095)] at hp
      by_cases h21 : z.natAbs ≤ 1048575
      · rw [if_pos (show ((z.natAbs : ℕ) : ℤ) ≤ 1048575 by exact_mod_cast h21)] at hp
        rw [List.nil_append] at hp
        injection hp with hp
        rw [← hp]
        rw [show z.natAbs / 65536 % 256 = z.natAbs / 65536 from by omega]
        rw [show 64 + signedBit z + z.natAbs / 65536
            = 2 * 32 + signedBit z + z.natAbs / 65536 from by omega]
        rw [readPacked_int 2 (signedBit z) (z.natAbs / 65536)
          [z.natAbs / 256 % 256, z.natAbs % 256] (by omega) hsc (by omega) rfl (by omega)]
        rw [show intPayload (z.natAbs / 65536) [z.natAbs / 256 % 256, z.natAbs % 256]
            = z.natAbs from by
          simp [intPayload]
          omega]
        rw [hsv]
      · rw [if_neg (show ¬ ((z.natAbs : ℕ) : ℤ) ≤ 1048575 by exact_mod_cast h21)] at hp
        by_cases h29 : z.natAbs ≤ 268435455
        · rw [if_pos (show ((z.natAbs : ℕ) : ℤ) ≤ 268435455 by exact_mod_cast h29)] at hp
          rw [List.nil_append] at hp
          injection hp with hp
          rw [← hp]
          rw [show z.natAbs / 16777216 % 256 = z.natAbs / 16777216 from by omega]
          rw [show 96 + signedBit z + z.natAbs / 16777216
              = 3 * 32 + signedBit z + z.natAbs / 16777216 from by omega]
          rw [readPacked_int 3 (signedBit z) (z.natAbs / 16777216)
            [z.natAbs / 65536 % 256, z.natAbs / 256 % 256, z.natAbs % 256] (by omega) hsc
            (by omega) rfl (by omega)]
          rw [show intPayload (z.natAbs / 16777216)
              [z.natAbs / 65536 % 256, z.natAbs / 256 % 256, z.natAbs % 256]
              = z.natAbs from by
            simp [intPayload]
            omega]
          rw [hsv]
        · rw [if_neg (show ¬ ((z.natAbs : ℕ) : ℤ) ≤ 268435455 by exact_mod_cast h29)] at hp
          exact absurd hp (by simp)

theorem readPacked_float16 (q : ℚ) (h16 : finFloat 10 5 q = true) (h0 : q ≠ 0) :
    readPacked (4 * 32 :: leBytes 2 (toBits 10 5 q)) = ([], q) := by
  have hb : toBits 10 5 q < 256 ^ 2 := by
    have := toBits_lt 10 5 (by omega) q h16 h0
    norm_num at this ⊢
    omega
  simp only [readPacked]
  norm_num
  rw [List.take_of_length_le (le_of_eq (leBytes_length 2 _)), joinLE_leBytes 2 _ hb,
    ofBits_toBits 10 5 (by omega) q h16 h0]
  exact ⟨le_of_eq (leBytes_length 2 _), rfl⟩

theorem readPacked_float32 (q : ℚ) (h32 : finFloat 23 8 q = true) (h0 : q ≠ 0) :
    readPacked (5 * 32 :: leBytes 4 (toBits 23 8 q)) = ([], q) := by
  have hb : toBits 23 8 q < 256 ^ 4 := by
    have := toBits_lt 23 8 (by omega) q h32 h0
    norm_num at this ⊢
    omega
  simp only [readPacked]
  norm_num
  rw [List.take_of_length_le (le_of_eq (leBytes_length 4 _)), joinLE_leBytes 4 _ hb,
    ofBits_toBits 23 8 (by omega) q h32 h0]
  exact ⟨le_of_eq (leBytes_length 4 _), rfl⟩

theorem readPacked_float64 (q : ℚ) (h64 : finFloat 52 11 q = true) (h0 : q ≠ 0) :
    readPacked (6 * 32 :: leBytes 8 (toBits 52 11 q)) = ([], q) := by
  have hb : toBits 52 11 q < 256 ^ 8 := by
    have := toBits_lt 52 11 (by omega) q h64 h0
    norm_num at this ⊢
    omega
  simp only [readPacked]
  norm_num
  rw [List.take_of_length_le (le_of_eq (leBytes_length 8 _)), joinLE_leBytes 8 _ hb,
    ofBits_toBits 52 11 (by omega) q h64 h0]
  exact ⟨le_of_eq (leBytes_length 8 _), rfl⟩

theorem readPacked_floatFallthrough (q : ℚ) (hfin : finFloat 52 11 q = true) (h0 : q ≠ 0) :
    readPacked (if finFloat 23 8 q then
        if finFloat 10 5 q then ([] : List Nat) ++ [4 * 32] ++ leBytes 2 (toBits 10 5 q)
        else ([] : List Nat) ++ [5 * 32] ++ leBytes 4 (toBits 23 8 q)
      else ([] : List Nat) ++ [6 * 32] ++ leBytes 8 (toBits 52 11 q)) = ([], q) := by
  by_cases h32 : finFloat 23 8 q = true
  · by_cases h16 : finFloat 10 5 q = true
    · rw [if_pos h32, if_pos h16]
      simp only [List.nil_append, List.singleton_append]
      exact readPacked_float16 q h16 h0
    · rw [if_pos h32, if_neg h16]
      simp only [List.nil_append, List.singleton_append]
      exact readPacked_float32 q h32 h0
  · rw [if_neg h32]
    simp only [List.nil_append, List.singleton_append]
    exact readPacked_float64 q hfin h0

theorem readPacked_appendPacked (q : ℚ) (hfin : finFloat 52 11 q = true)
    (hq : q ≠ -(2 ^ 63)) : readPacked (appendPacked [] q) = ([], q) := by
  by_cases h0 : q = 0
  · subst h0
    simp [appendPacked, readPacked]
  · unfold appendPacked
    rw [if_neg h0]
    by_cases hw : q = ((goInt64 q : ℤ) : ℚ)
    · rw [if_pos hw]
      rcases hcase : packWhole [] (goInt64 q) with _ | out
      · exact readPacked_floatFallthrough q hfin h0
      · have hz0 : goInt64 q ≠ 0 := by
          intro hzz
          rw [hzz] at hw
          norm_num at hw
          exact h0 hw
        have hzne : goInt64 q ≠ -(2 ^ 63) := by
          intro hzz
          rw [hzz] at hw
          apply hq
          rw [hw]
          push_cast
          ring
        obtain ⟨hlo, hhi⟩ := goInt64_range q
        show readPacked out = ([], q)
        rw [readPacked_packWhole (goInt64 q) hz0 hzne hlo hhi out hcase, ← hw]
    · rw [if_neg hw]
      exact readPacked_floatFallthrough q hfin h0

theorem qtrunc_intCast (n : ℤ) : qtrunc ((n : ℤ) : ℚ) = n := by
  unfold qtrunc
  simp only [Rat.num_intCast, Rat.den_intCast]
  split
  · rw [Nat.div_one]
    omega
  · rw [Nat.div_one]
    omega

theorem goInt64_intCast (n : ℤ) (hlo : -(2 ^ 63) ≤ n) (hhi : n < 2 ^ 63) :
    goInt64 ((n : ℤ) : ℚ) = n := by
  unfold goInt64
  rw [qtrunc_intCast]
  rw [if_neg (by omega)]

theorem packWhole_some_len (z : ℤ) (h29 : z.natAbs ≤ 268435455) :
    ∃ out, packWhole [] z = some out ∧
      out.length = (if z.natAbs ≤ 15 then 1 else if z.natAbs ≤ 4095 then 2
        else if z.natAbs ≤ 1048575 then 3 else 4) := by
  have hm : magOf z = (z.natAbs : ℤ) := magOf_natAbs z (by omega) (by omega) (by omega)
  unfold packWhole
  rw [hm]
  by_cases h15 : z.natAbs ≤ 15
  · rw [if_pos (show ((z.natAbs : ℕ) : ℤ) ≤ 15 by exact_mod_cast h15), if_pos h15]
    exact ⟨_, rfl, by simp⟩
  · rw [if_neg (show ¬ ((z.natAbs : ℕ) : ℤ) ≤ 15 by exact_mod_cast h15), if_neg h15]
    by_cases h12 : z.natAbs ≤ 4095
    · rw [if_pos (show ((z.natAbs : ℕ) : ℤ) ≤ 4095 by exact_mod_cast h12), if_pos h12]
      exact ⟨_, rfl, by simp⟩
    · rw [if_neg (show ¬ ((z.natAbs : ℕ) : ℤ) ≤ 4095 by exact_mod_cast h12), if_neg h12]
      by_cases h20 : z.natAbs ≤ 1048575
      · rw [if_pos (show ((z.natAbs : ℕ) : ℤ) ≤ 1048575 by exact_mod_cast h20), if_pos h20]
        exact ⟨_, rfl, by simp⟩
      · rw [if_neg (show ¬ ((z.natAbs : ℕ) : ℤ) ≤ 1048575 by exact_mod_cast h20), if_neg h20]
        rw [if_pos (show ((z.natAbs : ℕ) : ℤ) ≤ 268435455 by exact_mod_cast h29)]
        exact ⟨_, rfl, by simp⟩

theorem appendPacked_intCast_len (n : ℤ) (h0 : n ≠ 0) (h29 : n.natAbs ≤ 268435455) :
    (appendPacked [] ((n : ℤ) : ℚ)).length
      = (if n.natAbs ≤ 15 then 1 else if n.natAbs ≤ 4095 then 2
        else if n.natAbs ≤ 1048575 then 3 else 4) := by
  obtain ⟨out, hsome, hlen⟩ := packWhole_some_len n h29
  unfold appendPacked
  rw [if_neg (show ¬ ((n : ℤ) : ℚ) = 0 by exact_mod_cast h0)]
  rw [if_pos (show ((n : ℤ) : ℚ) = ((goInt64 ((n : ℤ) : ℚ) : ℤ) : ℚ) by
    rw [goInt64_intCast n (by omega) (by omega)])]
  rw [goInt64_intCast n (by omega) (by omega), hsome]
  exact hlen

theorem readPacked_shrink (b : Nat) (rest : List Nat) :
    (readPacked (b :: rest)).1.length ≤ rest.length := by
  simp only [readPacked]
  split_ifs <;> simp [List.length_drop]

/-- `packedGenerateFieldBytes` encodes a vector of values back to back. -/
def packedGenerateFieldBytes (values : List ℚ) : List Nat :=
  values.foldl (fun dst v => appendPacked dst v) []

/-- All values of a packed stream in order, as `packedForEachField` visits them
with a negative count. -/
def packedReadAll (data : List Nat) : List ℚ :=
  match data with
  | [] => []
  | b :: rest => (readPacked (b :: rest)).2 :: packedReadAll (readPacked (b :: rest)).1
termination_by data.length
decreasing_by
  have := readPacked_shrink x xs
  simp only [List.length_cons]
  omega

/-- `Item.packedSetField` on the fields byte block (the id tail of the raw
buffer is carried unchanged by the collection item model and omitted here):
locate the field with `skipPacked`, then no-op / in-place overwrite / rebuild
`head ++ blanks ++ newField ++ tail` exactly as the source does.  An in-place
overwrite of an equal-sized encoding produces the same bytes as the rebuild,
so both are the concatenation below. -/
def packedSetField (headBytes0 : List Nat) (index : Nat) (value : ℚ) :
    List Nat × Bool :=
  if (skipPacked headBytes0 index).1 = [] then
    if value = 0 then (headBytes0, false)
    else
      (headBytes0 ++ List.replicate (index - (skipPacked headBytes0 index).2) 0
        ++ appendPacked [] value, true)
  else
    if (readPacked (skipPacked headBytes0 index).1).2 = value then (headBytes0, false)
    else
      (headBytes0.take (headBytes0.length - (skipPacked headBytes0 index).1.length)
        ++ appendPacked [] value
        ++ (readPacked (skipPacked headBytes0 index).1).1, true)

/-- `Item.unpackedSetField`: the unpacked (eight bytes per field) layout of the
packed-capable item, with the trailing-zero guard. -/
def unpackedSetField (vals : List ℚ) (index : Nat) (value : ℚ) : List ℚ × Bool :=
  if index < vals.length then
    if vals.getD index 0 = value then (vals, false)
    else (vals.set index value, true)
  else if value = 0 then (vals, false)
  else (vals ++ List.replicate (index - vals.length) 0 ++ [value], true)

/-- `Item.SetField` of the legacy item (`internal/collection/item/item.go`):
same unpacked layout but without the trailing-zero guard, so an out-of-range
index always grows the buffer. -/
def legacySetField (vals : List ℚ) (index : Nat) (value : ℚ) : List ℚ × Bool :=
  if index < vals.length then
    if vals.getD index 0 = value then (vals, false)
    else (vals.set index value, true)
  else (vals ++ List.replicate (index - vals.length) 0 ++ [value], true)

theorem skipPacked_all (data : List Nat) (count : Nat) (h : countPacked data ≤ count) :
    skipPacked data count = ([], countPacked data) := by
  induction data using countPacked.induct generalizing count with
  | case1 => simp [skipPacked, countPacked]
  | case2 x xs ih =>
    rw [countPacked] at h ⊢
    rcases count with _ | c
    · omega
    · rw [skipPacked]
      rw [ih c (by omega)]

theorem packedSetField_zero_noop (data : List Nat) (k : Nat) :
    packedSetField data (countPacked data + k) 0 = (data, false) := by
  have h := skipPacked_all data (countPacked data + k) (by omega)
  unfold packedSetField
  rw [h]
  simp

theorem unpackedSetField_zero_noop (vals : List ℚ) (k : Nat) :
    unpackedSetField vals (vals.length + k) 0 = (vals, false) := by
  unfold unpackedSetField
  rw [if_neg (by omega), if_pos rfl]

theorem legacySetField_grows (vals : List ℚ) (k : Nat) :
    legacySetField vals (vals.length + k) 0
      = (vals ++ List.replicate k 0 ++ [0], true) := by
  unfold legacySetField
  rw [if_neg (by omega)]
  simp

/-!
Item and collection model.

Items are embedded structurally: an id, an object, and a field store that is
either the packed codec byte block or the unpacked vector (the unpacked
layout is eight raw bytes per float, so its byte length is `8 * count`; the
float payloads themselves are opaque to every operation, which act at whole
field granularity, so the unpacked store keeps the decoded vector).  The id
tail of the raw buffer never changes and is held as a separate field.

The external geojson objects appear only through the interface the collection
uses (bounding rectangle, emptiness, point count, string form, containment /
intersection, center); `GeoObj` models that collaborator, with the geometric
relations modelled on bounding rectangles.
-/

structure QRect where
  minX : ℚ
  minY : ℚ
  maxX : ℚ
  maxY : ℚ
deriving DecidableEq

inductive GeoObj where
  | spatial (rect : QRect) (numPoints : Nat) (isEmpty : Bool)
  | circle (cx cy meters : ℚ) (numPoints : Nat)
  | strval (s : String)
deriving DecidableEq

def objIsSpatial : GeoObj → Bool
  | .spatial _ _ _ => true
  | .circle _ _ _ _ => true
  | .strval _ => false

def objEmpty : GeoObj → Bool
  | .spatial _ _ e => e
  | .circle _ _ _ _ => false
  | .strval _ => false

def objNumPoints : GeoObj → Nat
  | .spatial _ n _ => n
  | .circle _ _ _ n => n
  | .strval _ => 0

/-- Length of `obj.String()`; the collection only uses it for non-spatial
(string value) objects. -/
def objStrLen : GeoObj → Nat
  | .strval s => s.length
  | _ => 0

def rectOf : GeoObj → QRect
  | .spatial r _ _ => r
  | .circle cx cy _ _ => ⟨cx, cy, cx, cy⟩
  | .strval _ => ⟨0, 0, 0, 0⟩

def objCenter : GeoObj → ℚ × ℚ
  | .spatial r _ _ => ((r.minX + r.maxX) / 2, (r.minY + r.maxY) / 2)
  | .circle cx cy _ _ => (cx, cy)
  | .strval _ => (0, 0)

def rectWithin (a b : QRect) : Bool :=
  b.minX ≤ a.minX && a.maxX ≤ b.maxX && b.minY ≤ a.minY && a.maxY ≤ b.maxY

def rectIntersects (a b : QRect) : Bool :=
  a.minX ≤ b.maxX && b.minX ≤ a.maxX && a.minY ≤ b.maxY && b.minY ≤ a.maxY

/-- Modelled from the spec: the external geometry library's `o.Within(obj)`,
on bounding rectangles. -/
def objWithin (o q : GeoObj) : Bool := rectWithin (rectOf o) (rectOf q)

/-- Modelled from the spec: the external geometry library's
`o.Intersects(obj)`, on bounding rectangles. -/
def objIntersects (o q : GeoObj) : Bool := rectIntersects (rectOf o) (rectOf q)

inductive FStore where
  | packed (bytes : List Nat)
  | unpacked (vals : List ℚ)
deriving DecidableEq

/-- Fields block size in bytes (`fieldsLen` / `fieldsDataSize`). -/
def FStore.byteLen : FStore → Nat
  | .packed bytes => bytes.length
  | .unpacked vals => 8 * vals.length

def FStore.isPacked : FStore → Bool
  | .packed _ => true
  | .unpacked _ => false

/-- The decoded field vector, in the order `ForEachField(-1)` visits it. -/
def FStore.values : FStore → List ℚ
  | .packed bytes => packedReadAll bytes
  | .unpacked vals => vals

structure Itm where
  id : String
  obj : GeoObj
  store : FStore
deriving DecidableEq

def emptyStore (packed : Bool) : FStore :=
  if packed then .packed [] else .unpacked []

/-- `item.New id obj packed`: fresh item with no fields. -/
def Itm.new (id : String) (obj : GeoObj) (packed : Bool) : Itm :=
  ⟨id, obj, emptyStore packed⟩

def Itm.fieldsLen (it : Itm) : Nat := it.store.byteLen

def Itm.idLen (it : Itm) : Nat := it.id.length

/-- `Item.HasFields`. -/
def Itm.hasFields (it : Itm) : Bool := decide (0 < it.fieldsLen)

/-- `Item.WeightAndPoints` (weight, points). -/
def Itm.weightAndPoints (it : Itm) : ℤ × ℤ :=
  if objIsSpatial it.obj then
    ((objNumPoints it.obj : ℤ) * 16 + it.fieldsLen + it.idLen, (objNumPoints it.obj : ℤ))
  else ((objStrLen it.obj : ℤ) + it.fieldsLen + it.idLen, 0)

/-- `Item.SetField`, dispatching on the packed flag. -/
def Itm.setField (it : Itm) (index : Nat) (value : ℚ) : Itm × Bool :=
  match it.store with
  | .packed bytes =>
    (⟨it.id, it.obj, .packed (packedSetField bytes index value).1⟩,
      (packedSetField bytes index value).2)
  | .unpacked vals =>
    (⟨it.id, it.obj, .unpacked (unpackedSetField vals index value).1⟩,
      (unpackedSetField vals index value).2)

/-- `Item.GetField`. -/
def Itm.getField (it : Itm) (index : Nat) : ℚ :=
  (it.store.values).getD index 0

/-- `Item.CopyOverFields` with a `[]float64` argument. -/
def Itm.copyOverFieldsVals (it : Itm) (values : List ℚ) : Itm :=
  match it.store with
  | .packed _ => ⟨it.id, it.obj, .packed (packedGenerateFieldBytes values)⟩
  | .unpacked _ => ⟨it.id, it.obj, .unpacked values⟩

/-- `Item.CopyOverFields` with an `*Item` argument: a matching packed flag
copies the raw field block; a mismatch falls into the iteration branch, which
in the source iterates the destination item's own fields (the collection
never mixes flags, so that branch is unreachable there; it is embedded as
written). -/
def Itm.copyOverFieldsItem (it src : Itm) : Itm :=
  if it.store.isPacked = src.store.isPacked then ⟨it.id, it.obj, src.store⟩
  else it.copyOverFieldsVals it.store.values

/-!
The collection.  The identifier B-tree is embedded as its list of items; the
R-tree as its list of entries (insertion rectangle, item id) and the value
B-tree as its list of item ids — both secondary structures hold non-owning
references to items owned by the identifier tree, and ids are unique there,
so an id stands for the reference.  Deletion in the source matches by item
pointer; by-id erasure removes the same single entry.
-/

structure Collection where
  items : List Itm
  index : List (QRect × String)
  values : List String
  packed : Bool
  fieldMap : List String
  weight : ℤ
  points : ℤ
  objects : ℤ
  nobjects : ℤ
deriving DecidableEq

/-- `collection.New packed`. -/
def Collection.new (packed : Bool) : Collection :=
  ⟨[], [], [], packed, [], 0, 0, 0, 0⟩

/-- `items.Get` (lookup by id). -/
def itemsGet : List Itm → String → Option Itm
  | [], _ => none
  | x :: xs, id => if x.id = id then some x else itemsGet xs id

/-- `items.Set` (replace or insert by id), returning the previous item. -/
def itemsSet : List Itm → Itm → List Itm × Option Itm
  | [], it => ([it], none)
  | x :: xs, it =>
    if x.id = it.id then (it :: xs, some x)
    else (x :: (itemsSet xs it).1, (itemsSet xs it).2)

/-- `items.Delete` by id, returning the removed item. -/
def itemsDelete : List Itm → String → List Itm × Option Itm
  | [], _ => ([], none)
  | x :: xs, id =>
    if x.id = id then (xs, some x)
    else (x :: (itemsDelete xs id).1, (itemsDelete xs id).2)

/-- R-tree `Delete`: remove the entry of this item (by its unique id). -/
def eraseIdx : List (QRect × String) → String → List (QRect × String)
  | [], _ => []
  | e :: es, id => if e.2 = id then es else e :: eraseIdx es id

/-- Value B-tree `Delete`: remove this item's entry. -/
def eraseVal : List String → String → List String
  | [], _ => []
  | v :: vs, id => if v = id then vs else v :: eraseVal vs id

/-- `Collection.addItem`: insert into the R-tree (spatial, non-empty) or the
value B-tree (non-spatial), bump the counters, add weight and points. -/
def Collection.addItem (c : Collection) (it : Itm) : Collection :=
  if objIsSpatial it.obj then
    { c with
      index := if objEmpty it.obj then c.index else (rectOf it.obj, it.id) :: c.index,
      objects := c.objects + 1,
      weight := c.weight + (Itm.weightAndPoints it).1,
      points := c.points + (Itm.weightAndPoints it).2 }
  else
    { c with
      values := it.id :: c.values,
      nobjects := c.nobjects + 1,
      weight := c.weight + (Itm.weightAndPoints it).1,
      points := c.points + (Itm.weightAndPoints it).2 }

/-- `Collection.delItem`: the mirror image of `addItem`. -/
def Collection.delItem (c : Collection) (it : Itm) : Collection :=
  if objIsSpatial it.obj then
    { c with
      index := if objEmpty it.obj then c.index else eraseIdx c.index it.id,
      objects := c.objects - 1,
      weight := c.weight - (Itm.weightAndPoints it).1,
      points := c.points - (Itm.weightAndPoints it).2 }
  else
    { c with
      values := eraseVal c.values it.id,
      nobjects := c.nobjects - 1,
      weight := c.weight - (Itm.weightAndPoints it).1,
      points := c.points - (Itm.weightAndPoints it).2 }

/-- `Collection.setField` on an item reference: assign a dense index to a new
field name (a missing name gets index `len(fieldMap)`, which is
`fieldMap.indexOf name`), call `Item.SetField`, and when `updateWeight` is set
adjust the collection weight by the item's weight delta.  The item is returned
updated (the source mutates it through the shared pointer). -/
def Collection.setField (c : Collection) (it : Itm) (name : String) (v : ℚ)
    (uw : Bool) : Collection × Itm × Bool :=
  ({ c with
      fieldMap := if name ∈ c.fieldMap then c.fieldMap else c.fieldMap ++ [name],
      weight :=
        if uw ∧ (Itm.setField it (c.fieldMap.indexOf name) v).2 then
          c.weight - (Itm.weightAndPoints it).1
            + (Itm.weightAndPoints (Itm.setField it (c.fieldMap.indexOf name) v).1).1
        else c.weight },
    (Itm.setField it (c.fieldMap.indexOf name) v).1,
    (Itm.setField it (c.fieldMap.indexOf name) v).2)

/-- `Collection.setFields`: apply `setField` per name, taking `values[i]` when
present and `0` past the end of the value list, counting updates. -/
def Collection.setFields (c : Collection) (it : Itm) (names : List String)
    (vals : List ℚ) (uw : Bool) : Collection × Itm × Nat :=
  match names with
  | [] => (c, it, 0)
  | n :: ns =>
    ((Collection.setFields (Collection.setField c it n (vals.headD 0) uw).1
        (Collection.setField c it n (vals.headD 0) uw).2.1 ns vals.tail uw).1,
      (Collection.setFields (Collection.setField c it n (vals.headD 0) uw).1
        (Collection.setField c it n (vals.headD 0) uw).2.1 ns vals.tail uw).2.1,
      (Collection.setFields (Collection.setField c it n (vals.headD 0) uw).1
        (Collection.setField c it n (vals.headD 0) uw).2.1 ns vals.tail uw).2.2
        + (if (Collection.setField c it n (vals.headD 0) uw).2.2 then 1 else 0))

/-- The merge step of `Collection.Set` after field inheritance: a `nil`
`fields` slice with values copies them verbatim; a non-empty `fields` slice
merges pairwise through `setFields` (with `updateWeight` false). -/
def Collection.setMerge (c : Collection) (it : Itm)
    (fieldNames : Option (List String)) (vals : List ℚ) : Collection × Itm :=
  match fieldNames with
  | none => (c, if vals.length > 0 then it.copyOverFieldsVals vals else it)
  | some names =>
    if names.length > 0 then
      ((Collection.setFields c it names vals false).1,
        (Collection.setFields c it names vals false).2.1)
    else (c, it)

/-- Field inheritance step of `Collection.Set`: when an item with this id
existed and has fields, the new item adopts them via `CopyOverFields`. -/
def inheritFields (newItem : Itm) : Option Itm → Itm
  | some old => if old.hasFields then newItem.copyOverFieldsItem old else newItem
  | none => newItem

/-- `Collection.Set`.  The source inserts the fresh item into the id B-tree
first and then writes its fields through the shared pointer
(`CopyOverFields` inheritance, then the optional merge) before `addItem`;
inserting the finished item gives the same final state.  Returns the new
collection, the replaced item if any, and the new item. -/
def Collection.set (c : Collection) (id : String) (obj : GeoObj)
    (fieldNames : Option (List String)) (vals : List ℚ) :
    Collection × Option Itm × Itm :=
  ((Collection.addItem
      { (Collection.setMerge
          (match itemsGet c.items id with
            | some old => Collection.delItem c old
            | none => c)
          (inheritFields (Itm.new id obj c.packed) (itemsGet c.items id))
          fieldNames vals).1 with
        items := (itemsSet c.items
          (Collection.setMerge
            (match itemsGet c.items id with
              | some old => Collection.delItem c old
              | none => c)
            (inheritFields (Itm.new id obj c.packed) (itemsGet c.items id))
            fieldNames vals).2).1 }
      (Collection.setMerge
        (match itemsGet c.items id with
          | some old => Collection.delItem c old
          | none => c)
        (inheritFields (Itm.new id obj c.packed) (itemsGet c.items id))
        fieldNames vals).2),
    itemsGet c.items id,
    (Collection.setMerge
      (match itemsGet c.items id with
        | some old => Collection.delItem c old
        | none => c)
      (inheritFields (Itm.new id obj c.packed) (itemsGet c.items id))
      fieldNames vals).2)

/-- `Collection.Delete`. -/
def Collection.delete (c : Collection) (id : String) : Collection × Option Itm :=
  match itemsGet c.items id with
  | none => (c, none)
  | some old =>
    (Collection.delItem { c with items := (itemsDelete c.items id).1 } old, some old)

/-- `Collection.SetField` (public, by id). -/
def Collection.setFieldById (c : Collection) (id name : String) (v : ℚ) :
    Collection × Bool × Bool :=
  match itemsGet c.items id with
  | none => (c, false, false)
  | some it =>
    ({ (Collection.setField c it name v true).1 with
        items := (itemsSet (Collection.setField c it name v true).1.items
          (Collection.setField c it name v true).2.1).1 },
      (Collection.setField c it name v true).2.2, true)

/-- `Collection.SetFields` (public, by id). -/
def Collection.setFieldsById (c : Collection) (id : String) (names : List String)
    (vals : List ℚ) : Collection × Nat × Bool :=
  match itemsGet c.items id with
  | none => (c, 0, false)
  | some it =>
    ({ (Collection.setFields c it names vals true).1 with
        items := (itemsSet (Collection.setFields c it names vals true).1.items
          (Collection.setFields c it names vals true).2.1).1 },
      (Collection.setFields c it names vals true).2.2, true)

/-- One mutation of the collection state machine. -/
inductive Op where
  | set (id : String) (obj : GeoObj) (fieldNames : Option (List String)) (vals : List ℚ)
  | del (id : String)
  | sfield (id name : String) (v : ℚ)
  | sfields (id : String) (names : List String) (vals : List ℚ)

def Collection.applyOp (c : Collection) : Op → Collection
  | .set id obj fieldNames vals => (Collection.set c id obj fieldNames vals).1
  | .del id => (Collection.delete c id).1
  | .sfield id name v => (Collection.setFieldById c id name v).1
  | .sfields id names vals => (Collection.setFieldsById c id names vals).1

/-- A collection reached by a sequence of public mutations from empty. -/
def runOps (packed : Bool) (ops : List Op) : Collection :=
  ops.foldl Collection.applyOp (Collection.new packed)

def itemsWeight (items : List Itm) : ℤ :=
  (items.map (fun it => (Itm.weightAndPoints it).1)).sum

def itemsPoints (items : List Itm) : ℤ :=
  (items.map (fun it => (Itm.weightAndPoints it).2)).sum

theorem itemsGet_id (items : List Itm) (id : String) (it : Itm)
    (h : itemsGet items id = some it) : it.id = id := by
  induction items with
  | nil => simp [itemsGet] at h
  | cons x xs ih =>
    rw [itemsGet] at h
    split at h
    · cases h
      assumption
    · exact ih h

theorem sum_itemsSet (f : Itm → ℤ) (items : List Itm) (it : Itm) :
    (((itemsSet items it).1.map f).sum
        + (match itemsGet items it.id with | some old => f old | none => 0))
      = (items.map f).sum + f it := by
  induction items with
  | nil => simp [itemsSet, itemsGet]
  | cons x xs ih =>
    rw [itemsSet, itemsGet]
    by_cases hx : x.id = it.id
    · rw [if_pos hx, if_pos hx]
      simp
      ring
    · rw [if_neg hx, if_neg hx]
      simp only [List.map_cons, List.sum_cons]
      omega

theorem sum_itemsDelete (f : Itm → ℤ) (items : List Itm) (id : String) :
    (((itemsDelete items id).1.map f).sum
        + (match itemsGet items id with | some old => f old | none => 0))
      = (items.map f).sum := by
  induction items with
  | nil => simp [itemsDelete, itemsGet]
  | cons x xs ih =>
    rw [itemsDelete, itemsGet]
    by_cases hx : x.id = id
    · rw [if_pos hx, if_pos hx]
      simp
      ring
    · rw [if_neg hx, if_neg hx]
      simp only [List.map_cons, List.sum_cons]
      omega

theorem sum_itemsSet_none (f : Itm → ℤ) (items : List Itm) (it : Itm)
    (h : itemsGet items it.id = none) :
    ((itemsSet items it).1.map f).sum = (items.map f).sum + f it := by
  have hs := sum_itemsSet f items it
  rw [h] at hs
  simpa using hs

theorem sum_itemsSet_some (f : Itm → ℤ) (items : List Itm) (it old : Itm)
    (h : itemsGet items it.id = some old) :
    ((itemsSet items it).1.map f).sum + f old = (items.map f).sum + f it := by
  have hs := sum_itemsSet f items it
  rw [h] at hs
  simpa using hs

theorem sum_itemsDelete_some (f : Itm → ℤ) (items : List Itm) (id : String) (old : Itm)
    (h : itemsGet items id = some old) :
    ((itemsDelete items id).1.map f).sum + f old = (items.map f).sum := by
  have hs := sum_itemsDelete f items id
  rw [h] at hs
  simpa using hs

theorem packedSetField_false (d : List Nat) (i : Nat) (v : ℚ)
    (h : (packedSetField d i v).2 = false) : (packedSetField d i v).1 = d := by
  unfold packedSetField at h ⊢
  split_ifs at h ⊢ <;> simp_all

theorem unpackedSetField_false (vals : List ℚ) (i : Nat) (v : ℚ)
    (h : (unpackedSetField vals i v).2 = false) : (unpackedSetField vals i v).1 = vals := by
  unfold unpackedSetField at h ⊢
  split_ifs at h ⊢ <;> simp_all

theorem itmSetField_false (it : Itm) (i : Nat) (v : ℚ)
    (h : (Itm.setField it i v).2 = false) : (Itm.setField it i v).1 = it := by
  rcases it with ⟨id, obj, st⟩
  cases st with
  | packed bytes =>
    simp only [Itm.setField] at h ⊢
    rw [packedSetField_false _ _ _ h]
  | unpacked vals =>
    simp only [Itm.setField] at h ⊢
    rw [unpackedSetField_false _ _ _ h]

theorem itmSetField_id_obj (it : Itm) (i : Nat) (v : ℚ) :
    (Itm.setField it i v).1.id = it.id ∧ (Itm.setField it i v).1.obj = it.obj := by
  rcases it with ⟨id, obj, st⟩
  cases st <;> exact ⟨rfl, rfl⟩

theorem wp_snd_eq (a b : Itm) (h : a.obj = b.obj) :
    (Itm.weightAndPoints a).2 = (Itm.weightAndPoints b).2 := by
  unfold Itm.weightAndPoints
  rw [h]
  split <;> rfl

theorem addItem_basic (c : Collection) (it : Itm) :
    (Collection.addItem c it).items = c.items ∧
      (Collection.addItem c it).weight = c.weight + (Itm.weightAndPoints it).1 ∧
      (Collection.addItem c it).points = c.points + (Itm.weightAndPoints it).2 ∧
      (Collection.addItem c it).packed = c.packed := by
  unfold Collection.addItem
  split <;> exact ⟨rfl, rfl, rfl, rfl⟩

theorem delItem_basic (c : Collection) (it : Itm) :
    (Collection.delItem c it).items = c.items ∧
      (Collection.delItem c it).weight = c.weight - (Itm.weightAndPoints it).1 ∧
      (Collection.delItem c it).points = c.points - (Itm.weightAndPoints it).2 ∧
      (Collection.delItem c it).packed = c.packed := by
  unfold Collection.delItem
  split <;> exact ⟨rfl, rfl, rfl, rfl⟩

theorem setField_facts (c : Collection) (it : Itm) (name : String) (v : ℚ) (uw : Bool) :
    (Collection.setField c it name v uw).1.items = c.items ∧
      (Collection.setField c it name v uw).2.1.id = it.id ∧
      (Collection.setField c it name v uw).2.1.obj = it.obj ∧
      (uw = true →
        (Collection.setField c it name v uw).1.weight
            - (Itm.weightAndPoints (Collection.setField c it name v uw).2.1).1
          = c.weight - (Itm.weightAndPoints it).1) ∧
      (uw = false → (Collection.setField c it name v uw).1.weight = c.weight) ∧
      (Collection.setField c it name v uw).1.points = c.points ∧
      (Collection.setField c it name v uw).1.index = c.index ∧
      (Collection.setField c it name v uw).1.values = c.values ∧
      (Collection.setField c it name v uw).1.objects = c.objects ∧
      (Collection.setField c it name v uw).1.nobjects = c.nobjects ∧
      (Collection.setField c it name v uw).1.packed = c.packed := by
  obtain ⟨hid, hobj⟩ := itmSetField_id_obj it (c.fieldMap.indexOf name) v
  refine ⟨rfl, hid, hobj, ?_, ?_, rfl, rfl, rfl, rfl, rfl, rfl⟩
  · intro huw
    subst huw
    simp only [Collection.setField]
    split
    · ring
    · rename_i hcond
      have hfalse : (Itm.setField it (c.fieldMap.indexOf name) v).2 = false := by
        cases hb : (Itm.setField it (c.fieldMap.indexOf name) v).2
        · rfl
        · exact absurd ⟨by trivial, hb⟩ hcond
      rw [itmSetField_false it _ v hfalse]
  · intro huw
    subst huw
    simp only [Collection.setField]
    rw [if_neg (by simp)]

theorem setFields_facts (names : List String) : ∀ (c : Collection) (it : Itm)
    (vals : List ℚ) (uw : Bool),
    (Collection.setFields c it names vals uw).1.items = c.items ∧
      (Collection.setFields c it names vals uw).2.1.id = it.id ∧
      (Collection.setFields c it names vals uw).2.1.obj = it.obj ∧
      (uw = true →
        (Collection.setFields c it names vals uw).1.weight
            - (Itm.weightAndPoints (Collection.setFields c it names vals uw).2.1).1
          = c.weight - (Itm.weightAndPoints it).1) ∧
      (uw = false → (Collection.setFields c it names vals uw).1.weight = c.weight) ∧
      (Collection.setFields c it names vals uw).1.points = c.points ∧
      (Collection.setFields c it names vals uw).1.index = c.index ∧
      (Collection.setFields c it names vals uw).1.values = c.values ∧
      (Collection.setFields c it names vals uw).1.objects = c.objects ∧
      (Collection.setFields c it names vals uw).1.nobjects = c.nobjects ∧
      (Collection.setFields c it names vals uw).1.packed = c.packed := by
  induction names with
  | nil =>
    intro c it vals uw
    exact ⟨rfl, rfl, rfl, fun _ => by simp [Collection.setFields],
      fun _ => rfl, rfl, rfl, rfl, rfl, rfl, rfl⟩
  | cons n ns ih =>
    intro c it vals uw
    obtain ⟨h1, h2, h3, h4, h5, h6, h7, h8, h9, h10, h11⟩ :=
      setField_facts c it n (vals.headD 0) uw
    obtain ⟨g1, g2, g3, g4, g5, g6, g7, g8, g9, g10, g11⟩ :=
      ih (Collection.setField c it n (vals.headD 0) uw).1
        (Collection.setField c it n (vals.headD 0) uw).2.1 vals.tail uw
    simp only [Collection.setFields]
    refine ⟨by rw [g1, h1], by rw [g2, h2], by rw [g3, h3], ?_, ?_,
      by rw [g6, h6], by rw [g7, h7], by rw [g8, h8], by rw [g9, h9],
      by rw [g10, h10], by rw [g11, h11]⟩
    · intro huw
      have := g4 huw
      have := h4 huw
      omega
    · intro huw
      rw [g5 huw, h5 huw]

theorem copyVals_id_obj (it : Itm) (vals : List ℚ) :
    (it.copyOverFieldsVals vals).id = it.id ∧ (it.copyOverFieldsVals vals).obj = it.obj := by
  rcases it with ⟨id, obj, st⟩
  cases st <;> exact ⟨rfl, rfl⟩

theorem copyItem_id_obj (it src : Itm) :
    (it.copyOverFieldsItem src).id = it.id ∧ (it.copyOverFieldsItem src).obj = it.obj := by
  unfold Itm.copyOverFieldsItem
  split
  · exact ⟨rfl, rfl⟩
  · exact copyVals_id_obj it it.store.values

theorem inheritFields_id_obj (n : Itm) (o : Option Itm) :
    (inheritFields n o).id = n.id ∧ (inheritFields n o).obj = n.obj := by
  cases o with
  | none => exact ⟨rfl, rfl⟩
  | some old =>
    by_cases h : old.hasFields = true
    · have he : inheritFields n (some old) = n.copyOverFieldsItem old := by
        simp only [inheritFields, if_pos h]
      rw [he]
      exact copyItem_id_obj n old
    · have he : inheritFields n (some old) = n := by
        simp only [inheritFields, if_neg h]
      rw [he]
      exact ⟨rfl, rfl⟩

theorem setMerge_facts (c : Collection) (it : Itm) (fn : Option (List String))
    (vals : List ℚ) :
    (Collection.setMerge c it fn vals).1.weight = c.weight ∧
      (Collection.setMerge c it fn vals).1.points = c.points ∧
      (Collection.setMerge c it fn vals).2.id = it.id ∧
      (Collection.setMerge c it fn vals).2.obj = it.obj ∧
      (Collection.setMerge c it fn vals).1.items = c.items ∧
      (Collection.setMerge c it fn vals).1.index = c.index ∧
      (Collection.setMerge c it fn vals).1.values = c.values ∧
      (Collection.setMerge c it fn vals).1.objects = c.objects ∧
      (Collection.setMerge c it fn vals).1.nobjects = c.nobjects ∧
      (Collection.setMerge c it fn vals).1.packed = c.packed := by
  cases fn with
  | none =>
    by_cases hv : vals.length > 0
    · have he : Collection.setMerge c it none vals = (c, it.copyOverFieldsVals vals) := by
        simp only [Collection.setMerge, if_pos hv]
      rw [he]
      exact ⟨rfl, rfl, (copyVals_id_obj it vals).1, (copyVals_id_obj it vals).2,
        rfl, rfl, rfl, rfl, rfl, rfl⟩
    · have he : Collection.setMerge c it none vals = (c, it) := by
        simp only [Collection.setMerge, if_neg hv]
      rw [he]
      exact ⟨rfl, rfl, rfl, rfl, rfl, rfl, rfl, rfl, rfl, rfl⟩
  | some names =>
    obtain ⟨h1, h2, h3, h4, h5, h6, h7, h8, h9, h10, h11⟩ :=
      setFields_facts names c it vals false
    by_cases hn : names.length > 0
    · have he : Collection.setMerge c it (some names) vals
          = ((Collection.setFields c it names vals false).1,
            (Collection.setFields c it names vals false).2.1) := by
        simp only [Collection.setMerge, if_pos hn]
      rw [he]
      exact ⟨h5 rfl, h6, h2, h3, h1, h7, h8, h9, h10, h11⟩
    · have he : Collection.setMerge c it (some names) vals = (c, it) := by
        simp only [Collection.setMerge, if_neg hn]
      rw [he]
      exact ⟨rfl, rfl, rfl, rfl, rfl, rfl, rfl, rfl, rfl, rfl⟩

/-- The accounting invariant of the claim: the running `weight` and `points`
counters equal the sums over the stored items. -/
def accInv (c : Collection) : Prop :=
  c.weight = itemsWeight c.items ∧ c.points = itemsPoints c.items

theorem accInv_new (packed : Bool) : accInv (Collection.new packed) := by
  simp [accInv, Collection.new, itemsWeight, itemsPoints]

theorem accInv_set (c : Collection) (hI : accInv c) (id : String) (obj : GeoObj)
    (fn : Option (List String)) (vals : List ℚ) :
    accInv (Collection.set c id obj fn vals).1 := by
  obtain ⟨hw, hp⟩ := hI
  rcases hget : itemsGet c.items id with _ | old
  all_goals (
    simp only [Collection.set, hget]
    constructor)
  · obtain ⟨a1, a2, a3, a4⟩ := addItem_basic
      { (Collection.setMerge c (inheritFields (Itm.new id obj c.packed) none) fn vals).1 with
        items := (itemsSet c.items
          (Collection.setMerge c (inheritFields (Itm.new id obj c.packed) none) fn vals).2).1 }
      (Collection.setMerge c (inheritFields (Itm.new id obj c.packed) none) fn vals).2
    rw [a2, a1]
    obtain ⟨m1, m2, m3, m4, m5, m6, m7, m8, m9, m10⟩ :=
      setMerge_facts c (inheritFields (Itm.new id obj c.packed) none) fn vals
    have hfid : (Collection.setMerge c (inheritFields (Itm.new id obj c.packed) none)
        fn vals).2.id = id := by
      rw [m3, (inheritFields_id_obj (Itm.new id obj c.packed) none).1]
      rfl
    have hsum := sum_itemsSet_none (fun it => (Itm.weightAndPoints it).1) c.items
      (Collection.setMerge c (inheritFields (Itm.new id obj c.packed) none) fn vals).2
      (by rw [hfid]; exact hget)
    simp only at hsum
    simp only [m1]
    unfold itemsWeight at hw ⊢
    omega
  · obtain ⟨a1, a2, a3, a4⟩ := addItem_basic
      { (Collection.setMerge c (inheritFields (Itm.new id obj c.packed) none) fn vals).1 with
        items := (itemsSet c.items
          (Collection.setMerge c (inheritFields (Itm.new id obj c.packed) none) fn vals).2).1 }
      (Collection.setMerge c (inheritFields (Itm.new id obj c.packed) none) fn vals).2
    rw [a3, a1]
    obtain ⟨m1, m2, m3, m4, m5, m6, m7, m8, m9, m10⟩ :=
      setMerge_facts c (inheritFields (Itm.new id obj c.packed) none) fn vals
    have hfid : (Collection.setMerge c (inheritFields (Itm.new id obj c.packed) none)
        fn vals).2.id = id := by
      rw [m3, (inheritFields_id_obj (Itm.new id obj c.packed) none).1]
      rfl
    have hsum := sum_itemsSet_none (fun it => (Itm.weightAndPoints it).2) c.items
      (Collection.setMerge c (inheritFields (Itm.new id obj c.packed) none) fn vals).2
      (by rw [hfid]; exact hget)
    simp only at hsum
    simp only [m2]
    unfold itemsPoints at hp ⊢
    omega
  · obtain ⟨a1, a2, a3, a4⟩ := addItem_basic
      { (Collection.setMerge (Collection.delItem c old)
          (inheritFields (Itm.new id obj c.packed) (some old)) fn vals).1 with
        items := (itemsSet c.items
          (Collection.setMerge (Collection.delItem c old)
            (inheritFields (Itm.new id obj c.packed) (some old)) fn vals).2).1 }
      (Collection.setMerge (Collection.delItem c old)
        (inheritFields (Itm.new id obj c.packed) (some old)) fn vals).2
    rw [a2, a1]
    obtain ⟨m1, m2, m3, m4, m5, m6, m7, m8, m9, m10⟩ :=
      setMerge_facts (Collection.delItem c old)
        (inheritFields (Itm.new id obj c.packed) (some old)) fn vals
    obtain ⟨d1, d2, d3, d4⟩ := delItem_basic c old
    have hfid : (Collection.setMerge (Collection.delItem c old)
        (inheritFields (Itm.new id obj c.packed) (some old)) fn vals).2.id = id := by
      rw [m3, (inheritFields_id_obj (Itm.new id obj c.packed) (some old)).1]
      rfl
    have hsum := sum_itemsSet_some (fun it => (Itm.weightAndPoints it).1) c.items
      (Collection.setMerge (Collection.delItem c old)
        (inheritFields (Itm.new id obj c.packed) (some old)) fn vals).2 old
      (by rw [hfid]; exact hget)
    simp only at hsum
    simp only [m1, d2]
    unfold itemsWeight at hw ⊢
    omega
  · obtain ⟨a1, a2, a3, a4⟩ := addItem_basic
      { (Collection.setMerge (Collection.delItem c old)
          (inheritFields (Itm.new id obj c.packed) (some old)) fn vals).1 with
        items := (itemsSet c.items
          (Collection.setMerge (Collection.delItem c old)
            (inheritFields (Itm.new id obj c.packed) (some old)) fn vals).2).1 }
      (Collection.setMerge (Collection.delItem c old)
        (inheritFields (Itm.new id obj c.packed) (some old)) fn vals).2
    rw [a3, a1]
    obtain ⟨m1, m2, m3, m4, m5, m6, m7, m8, m9, m10⟩ :=
      setMerge_facts (Collection.delItem c old)
        (inheritFields (Itm.new id obj c.packed) (some old)) fn vals
    obtain ⟨d1, d2, d3, d4⟩ := delItem_basic c old
    have hfid : (Collection.setMerge (Collection.delItem c old)
        (inheritFields (Itm.new id obj c.packed) (some old)) fn vals).2.id = id := by
      rw [m3, (inheritFields_id_obj (Itm.new id obj c.packed) (some old)).1]
      rfl
    have hsum := sum_itemsSet_some (fun it => (Itm.weightAndPoints it).2) c.items
      (Collection.setMerge (Collection.delItem c old)
        (inheritFields (Itm.new id obj c.packed) (some old)) fn vals).2 old
      (by rw [hfid]; exact hget)
    simp only at hsum
    simp only [m2, d3]
    unfold itemsPoints at hp ⊢
    omega

/-- `Collection.TotalWeight`. -/
def Collection.TotalWeight (c : Collection) : ℤ := c.weight

/-- `Collection.PointCount`. -/
def Collection.PointCount (c : Collection) : ℤ := c.points

/-- `Collection.Count`. -/
def Collection.Count (c : Collection) : ℤ := c.objects + c.nobjects

theorem accInv_del (c : Collection) (hI : accInv c) (id : String) :
    accInv (Collection.delete c id).1 := by
  obtain ⟨hw, hp⟩ := hI
  rcases hget : itemsGet c.items id with _ | old
  · simp only [Collection.delete, hget]
    exact ⟨hw, hp⟩
  · simp only [Collection.delete, hget]
    obtain ⟨d1, d2, d3, d4⟩ :=
      delItem_basic { c with items := (itemsDelete c.items id).1 } old
    have hb : ({ c with items := (itemsDelete c.items id).1 } : Collection).weight
        = c.weight := rfl
    have hb2 : ({ c with items := (itemsDelete c.items id).1 } : Collection).points
        = c.points := rfl
    constructor
    · rw [d2, d1]
      have hsum := sum_itemsDelete_some (fun j => (Itm.weightAndPoints j).1) c.items id old hget
      simp only at hsum
      unfold itemsWeight at hw ⊢
      dsimp only
      omega
    · rw [d3, d1]
      have hsum := sum_itemsDelete_some (fun j => (Itm.weightAndPoints j).2) c.items id old hget
      simp only at hsum
      unfold itemsPoints at hp ⊢
      dsimp only
      omega

theorem accInv_sfield (c : Collection) (hI : accInv c) (id name : String) (v : ℚ) :
    accInv (Collection.setFieldById c id name v).1 := by
  obtain ⟨hw, hp⟩ := hI
  rcases hget : itemsGet c.items id with _ | it
  · simp only [Collection.setFieldById, hget]
    exact ⟨hw, hp⟩
  · simp only [Collection.setFieldById, hget]
    obtain ⟨f1, f2, f3, f4, f5, f6, f7, f8, f9, f10, f11⟩ := setField_facts c it name v true
    have hit : it.id = id := itemsGet_id c.items id it hget
    have hrecw : ({ (Collection.setField c it name v true).1 with
        items := (itemsSet (Collection.setField c it name v true).1.items
          (Collection.setField c it name v true).2.1).1 } : Collection).weight
        = (Collection.setField c it name v true).1.weight := rfl
    have hrecp : ({ (Collection.setField c it name v true).1 with
        items := (itemsSet (Collection.setField c it name v true).1.items
          (Collection.setField c it name v true).2.1).1 } : Collection).points
        = (Collection.setField c it name v true).1.points := rfl
    constructor
    · rw [hrecw]
      show _ = itemsWeight (itemsSet (Collection.setField c it name v true).1.items
        (Collection.setField c it name v true).2.1).1
      rw [f1]
      have hsum := sum_itemsSet_some (fun j => (Itm.weightAndPoints j).1) c.items
        (Collection.setField c it name v true).2.1 it (by rw [f2, hit]; exact hget)
      simp only at hsum
      have h4 := f4 rfl
      unfold itemsWeight at hw ⊢
      omega
    · rw [hrecp]
      show _ = itemsPoints (itemsSet (Collection.setField c it name v true).1.items
        (Collection.setField c it name v true).2.1).1
      rw [f1]
      have hsum := sum_itemsSet_some (fun j => (Itm.weightAndPoints j).2) c.items
        (Collection.setField c it name v true).2.1 it (by rw [f2, hit]; exact hget)
      simp only at hsum
      have hpts := wp_snd_eq (Collection.setField c it name v true).2.1 it f3
      unfold itemsPoints at hp ⊢
      omega

theorem accInv_sfields (c : Collection) (hI : accInv c) (id : String)
    (names : List String) (vals : List ℚ) :
    accInv (Collection.setFieldsById c id names vals).1 := by
  obtain ⟨hw, hp⟩ := hI
  rcases hget : itemsGet c.items id with _ | it
  · simp only [Collection.setFieldsById, hget]
    exact ⟨hw, hp⟩
  · simp only [Collection.setFieldsById, hget]
    obtain ⟨f1, f2, f3, f4, f5, f6, f7, f8, f9, f10, f11⟩ :=
      setFields_facts names c it vals true
    have hit : it.id = id := itemsGet_id c.items id it hget
    have hrecw : ({ (Collection.setFields c it names vals true).1 with
        items := (itemsSet (Collection.setFields c it names vals true).1.items
          (Collection.setFields c it names vals true).2.1).1 } : Collection).weight
        = (Collection.setFields c it names vals true).1.weight := rfl
    have hrecp : ({ (Collection.setFields c it names vals true).1 with
        items := (itemsSet (Collection.setFields c it names vals true).1.items
          (Collection.setFields c it names vals true).2.1).1 } : Collection).points
        = (Collection.setFields c it names vals true).1.points := rfl
    constructor
    · rw [hrecw]
      show _ = itemsWeight (itemsSet (Collection.setFields c it names vals true).1.items
        (Collection.setFields c it names vals true).2.1).1
      rw [f1]
      have hsum := sum_itemsSet_some (fun j => (Itm.weightAndPoints j).1) c.items
        (Collection.setFields c it names vals true).2.1 it (by rw [f2, hit]; exact hget)
      simp only at hsum
      have h4 := f4 rfl
      unfold itemsWeight at hw ⊢
      omega
    · rw [hrecp]
      show _ = itemsPoints (itemsSet (Collection.setFields c it names vals true).1.items
        (Collection.setFields c it names vals true).2.1).1
      rw [f1]
      have hsum := sum_itemsSet_some (fun j => (Itm.weightAndPoints j).2) c.items
        (Collection.setFields c it names vals true).2.1 it (by rw [f2, hit]; exact hget)
      simp only at hsum
      have hpts := wp_snd_eq (Collection.setFields c it names vals true).2.1 it f3
      unfold itemsPoints at hp ⊢
      omega

theorem accInv_step (c : Collection) (op : Op) (hI : accInv c) :
    accInv (Collection.applyOp c op) := by
  cases op with
  | set id obj fn vals => exact accInv_set c hI id obj fn vals
  | del id => exact accInv_del c hI id
  | sfield id name v => exact accInv_sfield c hI id name v
  | sfields id names vals => exact accInv_sfields c hI id names vals

theorem accInv_run (packed : Bool) (ops : List Op) : accInv (runOps packed ops) := by
  unfold runOps
  have h : ∀ (l : List Op) (c : Collection), accInv c → accInv (l.foldl Collection.applyOp c) := by
    intro l
    induction l with
    | nil => intro c hc; exact hc
    | cons op rest ih =>
      intro c hc
      exact ih _ (accInv_step c op hc)
  exact h ops _ (accInv_new packed)

/-- Claim C2 (confirmed): after any sequence of public Set, Delete, SetField
and SetFields operations, `TotalWeight()` equals the sum over the stored
items of the item weight — `numPoints*16 + fieldsByteLen + idByteLen` for a
spatial item, `len(valueString) + fieldsByteLen + idByteLen` for a string
item — and `PointCount()` equals the sum of `NumPoints()` over the spatial
items. -/
theorem accounting_invariant (packed : Bool) (ops : List Op) :
    Collection.TotalWeight (runOps packed ops)
        = ((runOps packed ops).items.map (fun it =>
            if objIsSpatial it.obj then
              (objNumPoints it.obj : ℤ) * 16 + it.fieldsLen + it.idLen
            else (objStrLen it.obj : ℤ) + it.fieldsLen + it.idLen)).sum ∧
      Collection.PointCount (runOps packed ops)
        = ((runOps packed ops).items.map (fun it =>
            if objIsSpatial it.obj then (objNumPoints it.obj : ℤ) else 0)).sum := by
  obtain ⟨hw, hp⟩ := accInv_run packed ops
  have hfw : ∀ it : Itm, (Itm.weightAndPoints it).1
      = if objIsSpatial it.obj then
          (objNumPoints it.obj : ℤ) * 16 + it.fieldsLen + it.idLen
        else (objStrLen it.obj : ℤ) + it.fieldsLen + it.idLen := by
    intro it
    unfold Itm.weightAndPoints
    split <;> rfl
  have hfp : ∀ it : Itm, (Itm.weightAndPoints it).2
      = if objIsSpatial it.obj then (objNumPoints it.obj : ℤ) else 0 := by
    intro it
    unfold Itm.weightAndPoints
    split <;> rfl
  constructor
  · rw [Collection.TotalWeight, hw]
    unfold itemsWeight
    simp only [hfw]
  · rw [Collection.PointCount, hp]
    unfold itemsPoints
    simp only [hfp]

theorem setFields_pad (names : List String) : ∀ (c : Collection) (it : Itm)
    (vals : List ℚ) (uw : Bool),
    Collection.setFields c it names vals uw
      = Collection.setFields c it names
          (vals ++ List.replicate (names.length - vals.length) 0) uw := by
  induction names with
  | nil => intro c it vals uw; rfl
  | cons n ns ih =>
    intro c it vals uw
    cases vals with
    | nil =>
      simp only [Collection.setFields, List.nil_append, List.length_cons,
        List.length_nil, Nat.sub_zero, List.replicate, List.headD, List.tail]
      rw [ih (Collection.setField c it n 0 uw).1 (Collection.setField c it n 0 uw).2.1 [] uw]
      simp
    | cons v vs =>
      simp only [Collection.setFields, List.cons_append, List.length_cons,
        List.headD, List.tail]
      have harith : ns.length + 1 - (vs.length + 1) = ns.length - vs.length := by omega
      rw [harith, ← ih]

theorem setField_fieldMap (c : Collection) (it : Itm) (n : String) (v : ℚ) (uw : Bool) :
    n ∈ (Collection.setField c it n v uw).1.fieldMap ∧
      ∀ m ∈ c.fieldMap, m ∈ (Collection.setField c it n v uw).1.fieldMap := by
  simp only [Collection.setField]
  by_cases hn : n ∈ c.fieldMap
  · rw [if_pos hn]
    exact ⟨hn, fun m hm => hm⟩
  · rw [if_neg hn]
    constructor
    · simp
    · intro m hm
      simp [hm]

theorem setFields_fieldMap (names : List String) : ∀ (c : Collection) (it : Itm)
    (vals : List ℚ) (uw : Bool),
    (∀ nm ∈ names, nm ∈ (Collection.setFields c it names vals uw).1.fieldMap) ∧
      ∀ m ∈ c.fieldMap, m ∈ (Collection.setFields c it names vals uw).1.fieldMap := by
  induction names with
  | nil =>
    intro c it vals uw
    exact ⟨by simp, fun m hm => hm⟩
  | cons n ns ih =>
    intro c it vals uw
    obtain ⟨h1, h2⟩ := setField_fieldMap c it n (vals.headD 0) uw
    obtain ⟨g1, g2⟩ := ih (Collection.setField c it n (vals.headD 0) uw).1
      (Collection.setField c it n (vals.headD 0) uw).2.1 vals.tail uw
    constructor
    · intro nm hnm
      rcases List.mem_cons.mp hnm with rfl | hnm
      · simp only [Collection.setFields]
        exact g2 nm h1
      · simp only [Collection.setFields]
        exact g1 nm hnm
    · intro m hm
      simp only [Collection.setFields]
      exact g2 m (h2 m hm)

theorem itemsGet_itemsSet (items : List Itm) (it : Itm) :
    itemsGet (itemsSet items it).1 it.id = some it := by
  induction items with
  | nil => simp [itemsSet, itemsGet]
  | cons x xs ih =>
    rw [itemsSet]
    by_cases hx : x.id = it.id
    · rw [if_pos hx]
      simp [itemsGet]
    · rw [if_neg hx]
      rw [itemsGet]
      simp only [if_neg hx]
      exact ih

theorem store_empty_of_noFields (it : Itm) (p : Bool) (h0 : it.hasFields = false)
    (hk : it.store.isPacked = p) : it.store = emptyStore p := by
  rcases it with ⟨id, obj, st⟩
  cases st with
  | packed bytes =>
    simp only [Itm.hasFields, Itm.fieldsLen, FStore.byteLen, FStore.isPacked] at h0 hk
    have : bytes = [] := by
      cases bytes
      · rfl
      · simp at h0
    subst this
    rw [← hk]
    rfl
  | unpacked vals =>
    simp only [Itm.hasFields, Itm.fieldsLen, FStore.byteLen, FStore.isPacked] at h0 hk
    have : vals = [] := by
      cases vals
      · rfl
      · simp at h0
    subst this
    rw [← hk]
    rfl

theorem copyItem_same_kind (it src : Itm) (h : it.store.isPacked = src.store.isPacked) :
    it.copyOverFieldsItem src = ⟨it.id, it.obj, src.store⟩ := by
  unfold Itm.copyOverFieldsItem
  rw [if_pos h]

theorem inheritFields_store (id : String) (obj : GeoObj) (p : Bool) (old : Itm)
    (hkind : old.store.isPacked = p) :
    inheritFields (Itm.new id obj p) (some old) = ⟨id, obj, old.store⟩ := by
  have hnewk : (Itm.new id obj p).store.isPacked = p := by
    unfold Itm.new emptyStore
    cases p <;> rfl
  by_cases h : old.hasFields = true
  · have he : inheritFields (Itm.new id obj p) (some old)
        = (Itm.new id obj p).copyOverFieldsItem old := by
      simp only [inheritFields, if_pos h]
    rw [he, copyItem_same_kind _ _ (by rw [hnewk, hkind])]
    rfl
  · have he : inheritFields (Itm.new id obj p) (some old) = Itm.new id obj p := by
      simp only [inheritFields, if_neg h]
    rw [he]
    unfold Itm.new
    rw [← store_empty_of_noFields old p (by simpa using h) hkind]

/-- Claim C6 (confirmed): replacing an item by `Set` with the same id makes
the new item inherit the previous item's field vector through
`CopyOverFields` — with nil fieldNames and no values the new item's store is
exactly the old store — and any caller-supplied fieldNames/values are merged
only afterwards, on the already-inherited item. -/
theorem set_inherits (c : Collection) (id : String) (obj : GeoObj) (old : Itm)
    (hget : itemsGet c.items id = some old)
    (hkind : old.store.isPacked = c.packed) :
    itemsGet (Collection.set c id obj none []).1.items id = some ⟨id, obj, old.store⟩ ∧
      ∀ (fn : Option (List String)) (vals : List ℚ),
        (Collection.set c id obj fn vals).2.2
          = (Collection.setMerge (Collection.delItem c old)
              (inheritFields (Itm.new id obj c.packed) (some old)) fn vals).2 := by
  have hfin : (Collection.setMerge (Collection.delItem c old)
      (inheritFields (Itm.new id obj c.packed) (some old)) none []).2
      = ⟨id, obj, old.store⟩ := by
    have he : Collection.setMerge (Collection.delItem c old)
        (inheritFields (Itm.new id obj c.packed) (some old)) none []
        = (Collection.delItem c old, inheritFields (Itm.new id obj c.packed) (some old)) := by
      simp [Collection.setMerge]
    rw [he]
    exact inheritFields_store id obj c.packed old hkind
  constructor
  · simp only [Collection.set, hget]
    rw [(addItem_basic _ _).1]
    show itemsGet (itemsSet c.items
      (Collection.setMerge (Collection.delItem c old)
        (inheritFields (Itm.new id obj c.packed) (some old)) none []).2).1 id = _
    rw [hfin]
    exact itemsGet_itemsSet c.items ⟨id, obj, old.store⟩
  · intro fn vals
    simp only [Collection.set, hget]

/-!
The `Fields` view of `internal/collection/fields.go`: a handle over one item,
`nil` (here `none`) when there is no item or the item has no fields.  The
packed branch lazily unpacks the values by iterating all fields; the unpacked
branch delegates to the item.
-/

structure FieldsH where
  item : Itm
deriving DecidableEq

/-- `itemFields`: a `nil` handle for a `nil` item or an item without fields. -/
def itemFields : Option Itm → Option FieldsH
  | none => none
  | some it => if it.hasFields then some ⟨it⟩ else none

/-- `Fields.Get`: zero on a nil handle; otherwise the unpacked lookup or the
lazily unpacked packed values, zero past the end. -/
def fieldsGet (h : Option FieldsH) (index : Nat) : ℚ :=
  match h with
  | none => 0
  | some f =>
    if f.item.store.isPacked = false then f.item.getField index
    else (f.item.store.values).getD index 0

/-- `Fields.ForEach` with a callback that always continues: the list of values
passed to it.  A negative count iterates the stored fields; otherwise exactly
`count` slots are visited, zero past the end.  A nil handle yields nothing. -/
def fieldsForEachList (h : Option FieldsH) (count : Int) : List ℚ :=
  match h with
  | none => []
  | some f =>
    if count < 0 then f.item.store.values
    else (List.range count.toNat).map (fun i => (f.item.store.values).getD i 0)

/-- `Collection.Get`. -/
def Collection.get (c : Collection) (id : String) :
    Option GeoObj × Option FieldsH × Bool :=
  match itemsGet c.items id with
  | none => (none, none, false)
  | some it => (some it.obj, itemFields (some it), true)

theorem itemFields_none_iff (j : Itm) :
    itemFields (some j) = none ↔ j.fieldsLen = 0 := by
  by_cases h : j.hasFields = true
  · have he : itemFields (some j) = some ⟨j⟩ := by
      simp only [itemFields, if_pos h]
    unfold Itm.hasFields at h
    simp only [decide_eq_true_eq] at h
    rw [he]
    simp
    omega
  · have he : itemFields (some j) = none := by
      simp only [itemFields, if_neg h]
    unfold Itm.hasFields at h
    simp only [decide_eq_true_eq] at h
    rw [he]
    simp
    omega

/-!
Membership in the secondary trees (claim C3).  The identifier tree holds
pairwise distinct ids; the R-tree and value-tree entries reference items by
id, so tree membership is membership of the id.
-/

def idsOf (items : List Itm) : List String := items.map Itm.id

theorem idsOf_cons (x : Itm) (xs : List Itm) : idsOf (x :: xs) = x.id :: idsOf xs := rfl

theorem mem_idsOf (items : List Itm) (s : String) :
    s ∈ idsOf items ↔ ∃ it ∈ items, it.id = s := by
  simp [idsOf]

theorem itemsGet_eq_none (items : List Itm) (id : String) :
    itemsGet items id = none ↔ id ∉ idsOf items := by
  induction items with
  | nil => simp [itemsGet, idsOf]
  | cons x xs ih =>
    rw [itemsGet, idsOf_cons]
    by_cases hx : x.id = id
    · rw [if_pos hx]
      simp [hx]
    · rw [if_neg hx, ih]
      simp only [List.mem_cons, not_or]
      constructor
      · intro h
        exact ⟨fun he => hx he.symm, h⟩
      · intro h
        exact h.2

theorem itemsGet_mem (items : List Itm) (id : String) (it : Itm)
    (h : itemsGet items id = some it) : it ∈ items := by
  induction items with
  | nil => simp [itemsGet] at h
  | cons x xs ih =>
    rw [itemsGet] at h
    split at h
    · cases h
      exact List.mem_cons_self _ _
    · exact List.mem_cons_of_mem _ (ih h)

theorem nodup_id_unique (items : List Itm) (hnd : (idsOf items).Nodup)
    (a b : Itm) (ha : a ∈ items) (hb : b ∈ items) (hid : a.id = b.id) : a = b := by
  induction items with
  | nil => simp at ha
  | cons x xs ih =>
    rw [idsOf_cons, List.nodup_cons] at hnd
    rcases List.mem_cons.mp ha with rfl | ha'
    · rcases List.mem_cons.mp hb with rfl | hb'
      · rfl
      · exact absurd ((mem_idsOf xs a.id).mpr ⟨b, hb', hid.symm⟩) hnd.1
    · rcases List.mem_cons.mp hb with rfl | hb'
      · exact absurd ((mem_idsOf xs b.id).mpr ⟨a, ha', hid⟩) hnd.1
      · exact ih hnd.2 ha' hb'

theorem mem_itemsSet_iff (items : List Itm) (it : Itm)
    (hnd : (idsOf items).Nodup) (j : Itm) :
    j ∈ (itemsSet items it).1 ↔ (j = it ∨ (j ∈ items ∧ j.id ≠ it.id)) := by
  induction items with
  | nil => simp [itemsSet]
  | cons x xs ih =>
    rw [idsOf_cons, List.nodup_cons] at hnd
    by_cases hx : x.id = it.id
    · have he : (itemsSet (x :: xs) it).1 = it :: xs := by
        simp only [itemsSet, if_pos hx]
      rw [he]
      constructor
      · intro h
        rcases List.mem_cons.mp h with rfl | hm
        · exact .inl rfl
        · refine .inr ⟨List.mem_cons_of_mem _ hm, ?_⟩
          intro hjid
          exact hnd.1 (hx ▸ hjid ▸ (mem_idsOf xs j.id).mpr ⟨j, hm, rfl⟩)
      · intro h
        rcases h with rfl | ⟨hm, hne⟩
        · exact List.mem_cons_self _ _
        · rcases List.mem_cons.mp hm with rfl | hm'
          · exact absurd hx hne
          · exact List.mem_cons_of_mem _ hm'
    · have he : (itemsSet (x :: xs) it).1 = x :: (itemsSet xs it).1 := by
        simp only [itemsSet, if_neg hx]
      rw [he]
      constructor
      · intro h
        rcases List.mem_cons.mp h with rfl | hm
        · exact .inr ⟨List.mem_cons_self _ _, hx⟩
        · rcases (ih hnd.2).mp hm with rfl | ⟨hm', hne⟩
          · exact .inl rfl
          · exact .inr ⟨List.mem_cons_of_mem _ hm', hne⟩
      · intro h
        rcases h with rfl | ⟨hm, hne⟩
        · exact List.mem_cons_of_mem _ ((ih hnd.2).mpr (.inl rfl))
        · rcases List.mem_cons.mp hm with rfl | hm'
          · exact List.mem_cons_self _ _
          · exact List.mem_cons_of_mem _ ((ih hnd.2).mpr (.inr ⟨hm', hne⟩))

theorem idsOf_itemsSet_sub (items : List Itm) (it : Itm) (s : String)
    (h : s ∈ idsOf (itemsSet items it).1) : s = it.id ∨ s ∈ idsOf items := by
  induction items with
  | nil =>
    simp [itemsSet, idsOf] at h
    exact .inl h
  | cons x xs ih =>
    by_cases hx : x.id = it.id
    · have he : (itemsSet (x :: xs) it).1 = it :: xs := by
        simp only [itemsSet, if_pos hx]
      rw [he, idsOf_cons] at h
      rcases List.mem_cons.mp h with rfl | hm
      · exact .inl rfl
      · exact .inr (idsOf_cons x xs ▸ List.mem_cons_of_mem _ hm)
    · have he : (itemsSet (x :: xs) it).1 = x :: (itemsSet xs it).1 := by
        simp only [itemsSet, if_neg hx]
      rw [he, idsOf_cons] at h
      rcases List.mem_cons.mp h with rfl | hm
      · exact .inr (idsOf_cons x xs ▸ List.mem_cons_self _ _)
      · rcases ih hm with h1 | h1
        · exact .inl h1
        · exact .inr (idsOf_cons x xs ▸ List.mem_cons_of_mem _ h1)

theorem nodup_idsOf_itemsSet (items : List Itm) (it : Itm)
    (hnd : (idsOf items).Nodup) : (idsOf (itemsSet items it).1).Nodup := by
  induction items with
  | nil => simp [itemsSet, idsOf]
  | cons x xs ih =>
    rw [idsOf_cons, List.nodup_cons] at hnd
    by_cases hx : x.id = it.id
    · have he : (itemsSet (x :: xs) it).1 = it :: xs := by
        simp only [itemsSet, if_pos hx]
      rw [he, idsOf_cons]
      exact List.nodup_cons.mpr ⟨hx ▸ hnd.1, hnd.2⟩
    · have he : (itemsSet (x :: xs) it).1 = x :: (itemsSet xs it).1 := by
        simp only [itemsSet, if_neg hx]
      rw [he, idsOf_cons]
      refine List.nodup_cons.mpr ⟨?_, ih hnd.2⟩
      intro hmem
      rcases idsOf_itemsSet_sub xs it x.id hmem with h1 | h1
      · exact hx h1
      · exact hnd.1 h1

theorem itemsDelete_sublist (items : List Itm) (id : String) :
    (itemsDelete items id).1.Sublist items := by
  induction items with
  | nil => simp [itemsDelete]
  | cons x xs ih =>
    by_cases hx : x.id = id
    · have he : (itemsDelete (x :: xs) id).1 = xs := by
        simp only [itemsDelete, if_pos hx]
      rw [he]
      exact List.sublist_cons_self x xs
    · have he : (itemsDelete (x :: xs) id).1 = x :: (itemsDelete xs id).1 := by
        simp only [itemsDelete, if_neg hx]
      rw [he]
      exact ih.cons₂ x

theorem mem_itemsDelete_iff (items : List Itm) (id : String)
    (hnd : (idsOf items).Nodup) (j : Itm) :
    j ∈ (itemsDelete items id).1 ↔ (j ∈ items ∧ j.id ≠ id) := by
  induction items with
  | nil => simp [itemsDelete]
  | cons x xs ih =>
    rw [idsOf_cons, List.nodup_cons] at hnd
    by_cases hx : x.id = id
    · have he : (itemsDelete (x :: xs) id).1 = xs := by
        simp only [itemsDelete, if_pos hx]
      rw [he]
      constructor
      · intro hm
        refine ⟨List.mem_cons_of_mem _ hm, ?_⟩
        intro hjid
        exact hnd.1 (hx ▸ hjid ▸ (mem_idsOf xs j.id).mpr ⟨j, hm, rfl⟩)
      · intro ⟨hm, hne⟩
        rcases List.mem_cons.mp hm with rfl | hm'
        · exact absurd hx hne
        · exact hm'
    · have he : (itemsDelete (x :: xs) id).1 = x :: (itemsDelete xs id).1 := by
        simp only [itemsDelete, if_neg hx]
      rw [he]
      constructor
      · intro hm
        rcases List.mem_cons.mp hm with rfl | hm'
        · exact ⟨List.mem_cons_self _ _, hx⟩
        · obtain ⟨h1, h2⟩ := (ih hnd.2).mp hm'
          exact ⟨List.mem_cons_of_mem _ h1, h2⟩
      · intro ⟨hm, hne⟩
        rcases List.mem_cons.mp hm with rfl | hm'
        · exact List.mem_cons_self _ _
        · exact List.mem_cons_of_mem _ ((ih hnd.2).mpr ⟨hm', hne⟩)

theorem eraseIdx_sublist (es : List (QRect × String)) (id : String) :
    (eraseIdx es id).Sublist es := by
  induction es with
  | nil => simp [eraseIdx]
  | cons x xs ih =>
    by_cases hx : x.2 = id
    · have he : eraseIdx (x :: xs) id = xs := by
        simp only [eraseIdx, if_pos hx]
      rw [he]
      exact List.sublist_cons_self x xs
    · have he : eraseIdx (x :: xs) id = x :: eraseIdx xs id := by
        simp only [eraseIdx, if_neg hx]
      rw [he]
      exact ih.cons₂ x

theorem mem_eraseIdx_iff (es : List (QRect × String)) (id : String)
    (hnd : (es.map Prod.snd).Nodup) (e : QRect × String) :
    e ∈ eraseIdx es id ↔ (e ∈ es ∧ e.2 ≠ id) := by
  induction es with
  | nil => simp [eraseIdx]
  | cons x xs ih =>
    rw [List.map_cons, List.nodup_cons] at hnd
    by_cases hx : x.2 = id
    · have he : eraseIdx (x :: xs) id = xs := by
        simp only [eraseIdx, if_pos hx]
      rw [he]
      constructor
      · intro hm
        refine ⟨List.mem_cons_of_mem _ hm, ?_⟩
        intro heid
        exact hnd.1 (hx ▸ heid ▸ List.mem_map_of_mem Prod.snd hm)
      · intro ⟨hm, hne⟩
        rcases List.mem_cons.mp hm with rfl | hm'
        · exact absurd hx hne
        · exact hm'
    · have he : eraseIdx (x :: xs) id = x :: eraseIdx xs id := by
        simp only [eraseIdx, if_neg hx]
      rw [he]
      constructor
      · intro hm
        rcases List.mem_cons.mp hm with rfl | hm'
        · exact ⟨List.mem_cons_self _ _, hx⟩
        · obtain ⟨h1, h2⟩ := (ih hnd.2).mp hm'
          exact ⟨List.mem_cons_of_mem _ h1, h2⟩
      · intro ⟨hm, hne⟩
        rcases List.mem_cons.mp hm with rfl | hm'
        · exact List.mem_cons_self _ _
        · exact List.mem_cons_of_mem _ ((ih hnd.2).mpr ⟨hm', hne⟩)

theorem eraseVal_sublist (vs : List String) (id : String) :
    (eraseVal vs id).Sublist vs := by
  induction vs with
  | nil => simp [eraseVal]
  | cons x xs ih =>
    by_cases hx : x = id
    · have he : eraseVal (x :: xs) id = xs := by
        simp only [eraseVal, if_pos hx]
      rw [he]
      exact List.sublist_cons_self x xs
    · have he : eraseVal (x :: xs) id = x :: eraseVal xs id := by
        simp only [eraseVal, if_neg hx]
      rw [he]
      exact ih.cons₂ x

theorem mem_eraseVal_iff (vs : List String) (id : String) (hnd : vs.Nodup)
    (s : String) : s ∈ eraseVal vs id ↔ (s ∈ vs ∧ s ≠ id) := by
  induction vs with
  | nil => simp [eraseVal]
  | cons x xs ih =>
    rw [List.nodup_cons] at hnd
    by_cases hx : x = id
    · have he : eraseVal (x :: xs) id = xs := by
        simp only [eraseVal, if_pos hx]
      rw [he]
      constructor
      · intro hm
        refine ⟨List.mem_cons_of_mem _ hm, ?_⟩
        intro hsid
        exact hnd.1 (hx ▸ hsid ▸ hm)
      · intro ⟨hm, hne⟩
        rcases List.mem_cons.mp hm with rfl | hm'
        · exact absurd hx hne
        · exact hm'
    · have he : eraseVal (x :: xs) id = x :: eraseVal xs id := by
        simp only [eraseVal, if_neg hx]
      rw [he]
      constructor
      · intro hm
        rcases List.mem_cons.mp hm with rfl | hm'
        · exact ⟨List.mem_cons_self _ _, hx⟩
        · obtain ⟨h1, h2⟩ := (ih hnd.2).mp hm'
          exact ⟨List.mem_cons_of_mem _ h1, h2⟩
      · intro ⟨hm, hne⟩
        rcases List.mem_cons.mp hm with rfl | hm'
        · exact List.mem_cons_self _ _
        · exact List.mem_cons_of_mem _ ((ih hnd.2).mpr ⟨hm', hne⟩)

theorem addItem_trees (c : Collection) (it : Itm) :
    (∀ e, e ∈ (Collection.addItem c it).index ↔
        (e ∈ c.index ∨ (objIsSpatial it.obj = true ∧ objEmpty it.obj = false ∧
          e = (rectOf it.obj, it.id)))) ∧
      (∀ s, s ∈ (Collection.addItem c it).values ↔
        (s ∈ c.values ∨ (objIsSpatial it.obj = false ∧ s = it.id))) := by
  by_cases hsp : objIsSpatial it.obj = true
  · by_cases hem : objEmpty it.obj = true
    · have he : Collection.addItem c it = { c with
          index := c.index,
          objects := c.objects + 1,
          weight := c.weight + (Itm.weightAndPoints it).1,
          points := c.points + (Itm.weightAndPoints it).2 } := by
        simp only [Collection.addItem, if_pos hsp, if_pos hem]
      rw [he]
      constructor
      · intro e
        simp [hsp, hem]
      · intro s
        simp [hsp]
    · have he : Collection.addItem c it = { c with
          index := (rectOf it.obj, it.id) :: c.index,
          objects := c.objects + 1,
          weight := c.weight + (Itm.weightAndPoints it).1,
          points := c.points + (Itm.weightAndPoints it).2 } := by
        simp only [Collection.addItem, if_pos hsp, if_neg hem]
      rw [he]
      constructor
      · intro e
        simp only [List.mem_cons]
        constructor
        · intro h
          rcases h with rfl | h
          · exact .inr ⟨hsp, by simpa using hem, rfl⟩
          · exact .inl h
        · intro h
          rcases h with h | ⟨_, _, rfl⟩
          · exact .inr h
          · exact .inl rfl
      · intro s
        simp [hsp]
  · have he : Collection.addItem c it = { c with
        values := it.id :: c.values,
        nobjects := c.nobjects + 1,
        weight := c.weight + (Itm.weightAndPoints it).1,
        points := c.points + (Itm.weightAndPoints it).2 } := by
      simp only [Collection.addItem, if_neg hsp]
    rw [he]
    constructor
    · intro e
      simp [hsp]
    · intro s
      simp only [List.mem_cons]
      constructor
      · intro h
        rcases h with rfl | h
        · exact .inr ⟨by simpa using hsp, rfl⟩
        · exact .inl h
      · intro h
        rcases h with h | ⟨_, rfl⟩
        · exact .inr h
        · exact .inl rfl

theorem delItem_trees (c : Collection) (it : Itm)
    (hndX : (c.index.map Prod.snd).Nodup) (hndV : c.values.Nodup) :
    (∀ e, e ∈ (Collection.delItem c it).index ↔
        (e ∈ c.index ∧ (objIsSpatial it.obj = true → objEmpty it.obj = false →
          e.2 ≠ it.id))) ∧
      (∀ s, s ∈ (Collection.delItem c it).values ↔
        (s ∈ c.values ∧ (objIsSpatial it.obj = false → s ≠ it.id))) := by
  by_cases hsp : objIsSpatial it.obj = true
  · by_cases hem : objEmpty it.obj = true
    · have he : Collection.delItem c it = { c with
          index := c.index,
          objects := c.objects - 1,
          weight := c.weight - (Itm.weightAndPoints it).1,
          points := c.points - (Itm.weightAndPoints it).2 } := by
        simp only [Collection.delItem, if_pos hsp, if_pos hem]
      rw [he]
      constructor
      · intro e
        simp [hem]
      · intro s
        simp [hsp]
    · have he : Collection.delItem c it = { c with
          index := eraseIdx c.index it.id,
          objects := c.objects - 1,
          weight := c.weight - (Itm.weightAndPoints it).1,
          points := c.points - (Itm.weightAndPoints it).2 } := by
        simp only [Collection.delItem, if_pos hsp, if_neg hem]
      rw [he]
      constructor
      · intro e
        rw [mem_eraseIdx_iff c.index it.id hndX e]
        constructor
        · intro ⟨h1, h2⟩
          exact ⟨h1, fun _ _ => h2⟩
        · intro ⟨h1, h2⟩
          exact ⟨h1, h2 hsp (by simpa using hem)⟩
      · intro s
        simp [hsp]
  · have he : Collection.delItem c it = { c with
        values := eraseVal c.values it.id,
        nobjects := c.nobjects - 1,
        weight := c.weight - (Itm.weightAndPoints it).1,
        points := c.points - (Itm.weightAndPoints it).2 } := by
      simp only [Collection.delItem, if_neg hsp]
    rw [he]
    constructor
    · intro e
      simp [hsp]
    · intro s
      rw [mem_eraseVal_iff c.values it.id hndV s]
      constructor
      · intro ⟨h1, h2⟩
        exact ⟨h1, fun _ => h2⟩
      · intro ⟨h1, h2⟩
        exact ⟨h1, h2 (by simpa using hsp)⟩

theorem addItem_trees_nodup (c : Collection) (it : Itm)
    (hndX : (c.index.map Prod.snd).Nodup) (hndV : c.values.Nodup)
    (hX : it.id ∉ c.index.map Prod.snd) (hV : it.id ∉ c.values) :
    ((Collection.addItem c it).index.map Prod.snd).Nodup ∧
      (Collection.addItem c it).values.Nodup := by
  by_cases hsp : objIsSpatial it.obj = true
  · by_cases hem : objEmpty it.obj = true
    · have he : (Collection.addItem c it).index = c.index ∧
          (Collection.addItem c it).values = c.values := by
        simp only [Collection.addItem, if_pos hsp, if_pos hem]
        exact ⟨by trivial, by trivial⟩
      rw [he.1, he.2]
      exact ⟨hndX, hndV⟩
    · have he : (Collection.addItem c it).index = (rectOf it.obj, it.id) :: c.index ∧
          (Collection.addItem c it).values = c.values := by
        simp only [Collection.addItem, if_pos hsp, if_neg hem]
        exact ⟨by trivial, by trivial⟩
      rw [he.1, he.2]
      exact ⟨List.nodup_cons.mpr ⟨hX, hndX⟩, hndV⟩
  · have he : (Collection.addItem c it).index = c.index ∧
        (Collection.addItem c it).values = it.id :: c.values := by
      simp only [Collection.addItem, if_neg hsp]
      exact ⟨by trivial, by trivial⟩
    rw [he.1, he.2]
    exact ⟨hndX, List.nodup_cons.mpr ⟨hV, hndV⟩⟩

theorem delItem_trees_nodup (c : Collection) (it : Itm)
    (hndX : (c.index.map Prod.snd).Nodup) (hndV : c.values.Nodup) :
    ((Collection.delItem c it).index.map Prod.snd).Nodup ∧
      (Collection.delItem c it).values.Nodup := by
  by_cases hsp : objIsSpatial it.obj = true
  · by_cases hem : objEmpty it.obj = true
    · have he : (Collection.delItem c it).index = c.index ∧
          (Collection.delItem c it).values = c.values := by
        simp only [Collection.delItem, if_pos hsp, if_pos hem]
        exact ⟨by trivial, by trivial⟩
      rw [he.1, he.2]
      exact ⟨hndX, hndV⟩
    · have he : (Collection.delItem c it).index = eraseIdx c.index it.id ∧
          (Collection.delItem c it).values = c.values := by
        simp only [Collection.delItem, if_pos hsp, if_neg hem]
        exact ⟨by trivial, by trivial⟩
      rw [he.1, he.2]
      exact ⟨((eraseIdx_sublist c.index it.id).map Prod.snd).nodup hndX, hndV⟩
  · have he : (Collection.delItem c it).index = c.index ∧
        (Collection.delItem c it).values = eraseVal c.values it.id := by
      simp only [Collection.delItem, if_neg hsp]
      exact ⟨by trivial, by trivial⟩
    rw [he.1, he.2]
    exact ⟨hndX, (eraseVal_sublist c.values it.id).nodup hndV⟩

theorem exists_itemsSet_new (items : List Itm) (hnd : (idsOf items).Nodup)
    (nit : Itm) (s : String) (P : GeoObj → Prop) :
    (∃ j ∈ (itemsSet items nit).1, j.id = s ∧ P j.obj) ↔
      ((s = nit.id ∧ P nit.obj) ∨
        (∃ j ∈ items, j.id = s ∧ s ≠ nit.id ∧ P j.obj)) := by
  constructor
  · intro ⟨j, hj, hjs, hP⟩
    subst hjs
    rcases (mem_itemsSet_iff items nit hnd j).mp hj with rfl | ⟨hm, hne⟩
    · exact .inl ⟨rfl, hP⟩
    · exact .inr ⟨j, hm, rfl, hne, hP⟩
  · intro h
    rcases h with ⟨rfl, hP⟩ | ⟨j, hm, rfl, hne, hP⟩
    · exact ⟨nit, (mem_itemsSet_iff items nit hnd nit).mpr (.inl rfl), rfl, hP⟩
    · exact ⟨j, (mem_itemsSet_iff items nit hnd j).mpr (.inr ⟨hm, hne⟩), rfl, hP⟩

theorem exists_itemsSet_same (items : List Itm) (hnd : (idsOf items).Nodup)
    (it nit : Itm) (hmem : it ∈ items) (hid : nit.id = it.id)
    (hobj : nit.obj = it.obj) (s : String) (P : GeoObj → Prop) :
    (∃ j ∈ (itemsSet items nit).1, j.id = s ∧ P j.obj) ↔
      (∃ j ∈ items, j.id = s ∧ P j.obj) := by
  rw [exists_itemsSet_new items hnd nit s P]
  constructor
  · intro h
    rcases h with ⟨rfl, hP⟩ | ⟨j, hm, hjs, hne, hP⟩
    · exact ⟨it, hmem, hid.symm, hobj ▸ hP⟩
    · exact ⟨j, hm, hjs, hP⟩
  · intro ⟨j, hm, hjs, hP⟩
    subst hjs
    by_cases hs : j.id = nit.id
    · have hj_it : j = it := nodup_id_unique items hnd j it hm hmem (hs.trans hid)
      subst hj_it
      refine .inl ⟨hs.symm.symm, ?_⟩
      rw [hobj]
      exact hP
    · exact .inr ⟨j, hm, rfl, hs, hP⟩

theorem exists_itemsDelete (items : List Itm) (id : String)
    (hnd : (idsOf items).Nodup) (s : String) (P : GeoObj → Prop) :
    (∃ j ∈ (itemsDelete items id).1, j.id = s ∧ P j.obj) ↔
      (∃ j ∈ items, j.id = s ∧ s ≠ id ∧ P j.obj) := by
  constructor
  · intro ⟨j, hj, hjs, hP⟩
    subst hjs
    obtain ⟨hm, hne⟩ := (mem_itemsDelete_iff items id hnd j).mp hj
    exact ⟨j, hm, rfl, hne, hP⟩
  · intro ⟨j, hm, hjs, hne, hP⟩
    subst hjs
    exact ⟨j, (mem_itemsDelete_iff items id hnd j).mpr ⟨hm, hne⟩, rfl, hP⟩

/-- The index-membership invariant as the code keeps it: ids are pairwise
distinct in all three trees; an id is in the R-tree exactly when its item's
object is spatial and non-empty, and in the value B-tree exactly when its
item's object is non-spatial.  A spatial empty object is in neither. -/
def idxInv (c : Collection) : Prop :=
  (idsOf c.items).Nodup ∧ (c.index.map Prod.snd).Nodup ∧ c.values.Nodup ∧
    (∀ s : String, (∃ r, (r, s) ∈ c.index) ↔
      ∃ it ∈ c.items, it.id = s ∧
        (objIsSpatial it.obj = true ∧ objEmpty it.obj = false)) ∧
    (∀ s : String, s ∈ c.values ↔
      ∃ it ∈ c.items, it.id = s ∧ objIsSpatial it.obj = false)

theorem idxInv_new (packed : Bool) : idxInv (Collection.new packed) := by
  refine ⟨by simp [Collection.new, idsOf], by simp [Collection.new], by simp [Collection.new], ?_, ?_⟩
  · intro s
    simp [Collection.new]
  · intro s
    simp [Collection.new]

theorem idxInv_addItem_general (c d : Collection) (nit : Itm)
    (hnd : (idsOf c.items).Nodup)
    (hndX : (d.index.map Prod.snd).Nodup) (hndV : d.values.Nodup)
    (hXall : ∀ s, (∃ r, (r, s) ∈ d.index) ↔
      ∃ it ∈ c.items, it.id = s ∧ s ≠ nit.id ∧
        (objIsSpatial it.obj = true ∧ objEmpty it.obj = false))
    (hVall : ∀ s, s ∈ d.values ↔
      ∃ it ∈ c.items, it.id = s ∧ s ≠ nit.id ∧ objIsSpatial it.obj = false) :
    idxInv (Collection.addItem { d with items := (itemsSet c.items nit).1 } nit) := by
  have hXid : nit.id ∉ d.index.map Prod.snd := by
    intro hmem
    obtain ⟨e, he, he2⟩ := List.mem_map.mp hmem
    obtain ⟨it, _, _, hne, _⟩ := (hXall nit.id).mp
      ⟨e.1, by rw [← he2, Prod.mk.eta]; exact he⟩
    exact hne rfl
  have hVid : nit.id ∉ d.values := by
    intro hmem
    obtain ⟨it, _, _, hne, _⟩ := (hVall nit.id).mp hmem
    exact hne rfl
  obtain ⟨a1, _, _, _⟩ := addItem_basic { d with items := (itemsSet c.items nit).1 } nit
  obtain ⟨tX, tV⟩ := addItem_trees { d with items := (itemsSet c.items nit).1 } nit
  obtain ⟨nX, nV⟩ := addItem_trees_nodup { d with items := (itemsSet c.items nit).1 } nit
    hndX hndV hXid hVid
  refine ⟨?_, nX, nV, ?_, ?_⟩
  · rw [a1]
    exact nodup_idsOf_itemsSet c.items nit hnd
  · intro s
    constructor
    · intro ⟨r, hr⟩
      rcases (tX (r, s)).mp hr with hin | ⟨hsp, hem, heq⟩
      · obtain ⟨it, hm, hits, hne, hP⟩ := (hXall s).mp ⟨r, hin⟩
        refine ⟨it, ?_, hits, hP⟩
        rw [a1]
        exact (mem_itemsSet_iff c.items nit hnd it).mpr
          (.inr ⟨hm, fun hh => hne (hits ▸ hh)⟩)
      · have hs : s = nit.id := congrArg Prod.snd heq
        refine ⟨nit, ?_, hs.symm, hsp, hem⟩
        rw [a1]
        exact (mem_itemsSet_iff c.items nit hnd nit).mpr (.inl rfl)
    · intro ⟨it, hmA, hits, hP⟩
      rw [a1] at hmA
      rcases (mem_itemsSet_iff c.items nit hnd it).mp hmA with rfl | ⟨hm, hne⟩
      · exact ⟨rectOf it.obj, (tX (rectOf it.obj, s)).mpr
          (.inr ⟨hP.1, hP.2, by rw [← hits]⟩)⟩
      · obtain ⟨r, hr⟩ := (hXall s).mpr ⟨it, hm, hits, fun hh => hne (hits.trans hh), hP⟩
        exact ⟨r, (tX (r, s)).mpr (.inl hr)⟩
  · intro s
    constructor
    · intro hmem
      rcases (tV s).mp hmem with hin | ⟨hsp, hs⟩
      · obtain ⟨it, hm, hits, hne, hP⟩ := (hVall s).mp hin
        refine ⟨it, ?_, hits, hP⟩
        rw [a1]
        exact (mem_itemsSet_iff c.items nit hnd it).mpr
          (.inr ⟨hm, fun hh => hne (hits ▸ hh)⟩)
      · refine ⟨nit, ?_, hs.symm, hsp⟩
        rw [a1]
        exact (mem_itemsSet_iff c.items nit hnd nit).mpr (.inl rfl)
    · intro ⟨it, hmA, hits, hP⟩
      rw [a1] at hmA
      rcases (mem_itemsSet_iff c.items nit hnd it).mp hmA with rfl | ⟨hm, hne⟩
      · exact (tV s).mpr (.inr ⟨hP, hits.symm⟩)
      · exact (tV s).mpr (.inl ((hVall s).mpr
          ⟨it, hm, hits, fun hh => hne (hits.trans hh), hP⟩))

theorem idxInv_set (c : Collection) (hI : idxInv c) (id : String) (obj : GeoObj)
    (fn : Option (List String)) (vals : List ℚ) :
    idxInv (Collection.set c id obj fn vals).1 := by
  obtain ⟨hnd, hndX, hndV, hX, hV⟩ := hI
  rcases hget : itemsGet c.items id with _ | old
  · simp only [Collection.set, hget]
    obtain ⟨m1, m2, m3, m4, m5, m6, m7, m8, m9, m10⟩ :=
      setMerge_facts c (inheritFields (Itm.new id obj c.packed) none) fn vals
    have hfid : (Collection.setMerge c (inheritFields (Itm.new id obj c.packed) none)
        fn vals).2.id = id := by
      rw [m3, (inheritFields_id_obj (Itm.new id obj c.packed) none).1]
      rfl
    refine idxInv_addItem_general c _ _ hnd ?_ ?_ ?_ ?_
    · rw [m6]
      exact hndX
    · rw [m7]
      exact hndV
    · intro s
      rw [m6, hfid]
      constructor
      · intro ⟨r, hr⟩
        obtain ⟨it, hm, hits, hP⟩ := (hX s).mp ⟨r, hr⟩
        refine ⟨it, hm, hits, ?_, hP⟩
        intro hh
        exact (itemsGet_eq_none c.items id).mp hget
          ((mem_idsOf c.items id).mpr ⟨it, hm, hits.trans hh⟩)
      · intro ⟨it, hm, hits, _, hP⟩
        exact (hX s).mpr ⟨it, hm, hits, hP⟩
    · intro s
      rw [m7, hfid]
      constructor
      · intro hmem
        obtain ⟨it, hm, hits, hP⟩ := (hV s).mp hmem
        refine ⟨it, hm, hits, ?_, hP⟩
        intro hh
        exact (itemsGet_eq_none c.items id).mp hget
          ((mem_idsOf c.items id).mpr ⟨it, hm, hits.trans hh⟩)
      · intro ⟨it, hm, hits, _, hP⟩
        exact (hV s).mpr ⟨it, hm, hits, hP⟩
  · simp only [Collection.set, hget]
    obtain ⟨m1, m2, m3, m4, m5, m6, m7, m8, m9, m10⟩ :=
      setMerge_facts (Collection.delItem c old)
        (inheritFields (Itm.new id obj c.packed) (some old)) fn vals
    have hfid : (Collection.setMerge (Collection.delItem c old)
        (inheritFields (Itm.new id obj c.packed) (some old)) fn vals).2.id = id := by
      rw [m3, (inheritFields_id_obj (Itm.new id obj c.packed) (some old)).1]
      rfl
    have hold_id := itemsGet_id c.items id old hget
    have hold_mem := itemsGet_mem c.items id old hget
    obtain ⟨dt1, dt2⟩ := delItem_trees c old hndX hndV
    refine idxInv_addItem_general c _ _ hnd ?_ ?_ ?_ ?_
    · rw [m6]
      exact (delItem_trees_nodup c old hndX hndV).1
    · rw [m7]
      exact (delItem_trees_nodup c old hndX hndV).2
    · intro s
      rw [m6, hfid]
      constructor
      · intro ⟨r, hr⟩
        obtain ⟨hin, himp⟩ := (dt1 (r, s)).mp hr
        obtain ⟨it, hm, hits, hP⟩ := (hX s).mp ⟨r, hin⟩
        refine ⟨it, hm, hits, ?_, hP⟩
        intro hh
        have hit_old : it = old := nodup_id_unique c.items hnd it old hm hold_mem
          ((hits.trans hh).trans hold_id.symm)
        exact (himp (hit_old ▸ hP.1) (hit_old ▸ hP.2)) (hh.trans hold_id.symm)
      · intro ⟨it, hm, hits, hne, hP⟩
        obtain ⟨r, hr⟩ := (hX s).mpr ⟨it, hm, hits, hP⟩
        refine ⟨r, (dt1 (r, s)).mpr ⟨hr, fun _ _ => ?_⟩⟩
        intro hh
        exact hne (hh.trans hold_id)
    · intro s
      rw [m7, hfid]
      constructor
      · intro hmem
        obtain ⟨hin, himp⟩ := (dt2 s).mp hmem
        obtain ⟨it, hm, hits, hP⟩ := (hV s).mp hin
        refine ⟨it, hm, hits, ?_, hP⟩
        intro hh
        have hit_old : it = old := nodup_id_unique c.items hnd it old hm hold_mem
          ((hits.trans hh).trans hold_id.symm)
        exact (himp (hit_old ▸ hP)) (hh.trans hold_id.symm)
      · intro ⟨it, hm, hits, hne, hP⟩
        refine (dt2 s).mpr ⟨(hV s).mpr ⟨it, hm, hits, hP⟩, fun _ => ?_⟩
        intro hh
        exact hne (hh.trans hold_id)

theorem idxInv_del (c : Collection) (hI : idxInv c) (id : String) :
    idxInv (Collection.delete c id).1 := by
  obtain ⟨hnd, hndX, hndV, hX, hV⟩ := hI
  rcases hget : itemsGet c.items id with _ | old
  · simp only [Collection.delete, hget]
    exact ⟨hnd, hndX, hndV, hX, hV⟩
  · simp only [Collection.delete, hget]
    have hold_id := itemsGet_id c.items id old hget
    have hold_mem := itemsGet_mem c.items id old hget
    obtain ⟨dt1, dt2⟩ := delItem_trees
      { c with items := (itemsDelete c.items id).1 } old hndX hndV
    obtain ⟨dn1, dn2⟩ := delItem_trees_nodup
      { c with items := (itemsDelete c.items id).1 } old hndX hndV
    refine ⟨?_, dn1, dn2, ?_, ?_⟩
    · rw [(delItem_basic { c with items := (itemsDelete c.items id).1 } old).1]
      exact ((itemsDelete_sublist c.items id).map Itm.id).nodup hnd
    · intro s
      rw [(delItem_basic { c with items := (itemsDelete c.items id).1 } old).1]
      constructor
      · intro ⟨r, hr⟩
        obtain ⟨hin, himp⟩ := (dt1 (r, s)).mp hr
        obtain ⟨it, hm, hits, hP⟩ := (hX s).mp ⟨r, hin⟩
        refine (exists_itemsDelete c.items id hnd s
          (fun o => objIsSpatial o = true ∧ objEmpty o = false)).mpr
          ⟨it, hm, hits, ?_, hP⟩
        intro hh
        have hit_old : it = old := nodup_id_unique c.items hnd it old hm hold_mem
          ((hits.trans hh).trans hold_id.symm)
        exact (himp (hit_old ▸ hP.1) (hit_old ▸ hP.2)) (hh.trans hold_id.symm)
      · intro h
        obtain ⟨it, hm, hits, hne, hP⟩ := (exists_itemsDelete c.items id hnd s
          (fun o => objIsSpatial o = true ∧ objEmpty o = false)).mp h
        obtain ⟨r, hr⟩ := (hX s).mpr ⟨it, hm, hits, hP⟩
        refine ⟨r, (dt1 (r, s)).mpr ⟨hr, fun _ _ => ?_⟩⟩
        intro hh
        exact hne (hh.trans hold_id)
    · intro s
      rw [(delItem_basic { c with items := (itemsDelete c.items id).1 } old).1]
      constructor
      · intro hmem
        obtain ⟨hin, himp⟩ := (dt2 s).mp hmem
        obtain ⟨it, hm, hits, hP⟩ := (hV s).mp hin
        refine (exists_itemsDelete c.items id hnd s
          (fun o => objIsSpatial o = false)).mpr ⟨it, hm, hits, ?_, hP⟩
        intro hh
        have hit_old : it = old := nodup_id_unique c.items hnd it old hm hold_mem
          ((hits.trans hh).trans hold_id.symm)
        exact (himp (hit_old ▸ hP)) (hh.trans hold_id.symm)
      · intro h
        obtain ⟨it, hm, hits, hne, hP⟩ := (exists_itemsDelete c.items id hnd s
          (fun o => objIsSpatial o = false)).mp h
        refine (dt2 s).mpr ⟨(hV s).mpr ⟨it, hm, hits, hP⟩, fun _ => ?_⟩
        intro hh
        exact hne (hh.trans hold_id)

theorem idxInv_sfield (c : Collection) (hI : idxInv c) (id name : String) (v : ℚ) :
    idxInv (Collection.setFieldById c id name v).1 := by
  obtain ⟨hnd, hndX, hndV, hX, hV⟩ := hI
  rcases hget : itemsGet c.items id with _ | it
  · simp only [Collection.setFieldById, hget]
    exact ⟨hnd, hndX, hndV, hX, hV⟩
  · simp only [Collection.setFieldById, hget]
    obtain ⟨f1, f2, f3, f4, f5, f6, f7, f8, f9, f10, f11⟩ := setField_facts c it name v true
    have hit_mem := itemsGet_mem c.items id it hget
    rw [f1]
    refine ⟨nodup_idsOf_itemsSet c.items _ hnd, hndX, hndV, ?_, ?_⟩
    · intro s
      constructor
      · intro ⟨r, hr⟩
        obtain ⟨j, hm, hjs, hP⟩ := (hX s).mp ⟨r, hr⟩
        exact (exists_itemsSet_same c.items hnd it _ hit_mem f2 f3 s
          (fun o => objIsSpatial o = true ∧ objEmpty o = false)).mpr ⟨j, hm, hjs, hP⟩
      · intro h
        obtain ⟨j, hm, hjs, hP⟩ := (exists_itemsSet_same c.items hnd it _ hit_mem f2 f3 s
          (fun o => objIsSpatial o = true ∧ objEmpty o = false)).mp h
        exact (hX s).mpr ⟨j, hm, hjs, hP⟩
    · intro s
      constructor
      · intro hmem
        obtain ⟨j, hm, hjs, hP⟩ := (hV s).mp hmem
        exact (exists_itemsSet_same c.items hnd it _ hit_mem f2 f3 s
          (fun o => objIsSpatial o = false)).mpr ⟨j, hm, hjs, hP⟩
      · intro h
        obtain ⟨j, hm, hjs, hP⟩ := (exists_itemsSet_same c.items hnd it _ hit_mem f2 f3 s
          (fun o => objIsSpatial o = false)).mp h
        exact (hV s).mpr ⟨j, hm, hjs, hP⟩

theorem idxInv_sfields (c : Collection) (hI : idxInv c) (id : String)
    (names : List String) (vals : List ℚ) :
    idxInv (Collection.setFieldsById c id names vals).1 := by
  obtain ⟨hnd, hndX, hndV, hX, hV⟩ := hI
  rcases hget : itemsGet c.items id with _ | it
  · simp only [Collection.setFieldsById, hget]
    exact ⟨hnd, hndX, hndV, hX, hV⟩
  · simp only [Collection.setFieldsById, hget]
    obtain ⟨g1, g2, g3, g4, g5, g6, g7, g8, g9, g10, g11⟩ :=
      setFields_facts names c it vals true
    have hit_mem := itemsGet_mem c.items id it hget
    rw [g1, g7, g8]
    refine ⟨nodup_idsOf_itemsSet c.items _ hnd, hndX, hndV, ?_, ?_⟩
    · intro s
      constructor
      · intro ⟨r, hr⟩
        obtain ⟨j, hm, hjs, hP⟩ := (hX s).mp ⟨r, hr⟩
        exact (exists_itemsSet_same c.items hnd it _ hit_mem g2 g3 s
          (fun o => objIsSpatial o = true ∧ objEmpty o = false)).mpr ⟨j, hm, hjs, hP⟩
      · intro h
        obtain ⟨j, hm, hjs, hP⟩ := (exists_itemsSet_same c.items hnd it _ hit_mem g2 g3 s
          (fun o => objIsSpatial o = true ∧ objEmpty o = false)).mp h
        exact (hX s).mpr ⟨j, hm, hjs, hP⟩
    · intro s
      constructor
      · intro hmem
        obtain ⟨j, hm, hjs, hP⟩ := (hV s).mp hmem
        exact (exists_itemsSet_same c.items hnd it _ hit_mem g2 g3 s
          (fun o => objIsSpatial o = false)).mpr ⟨j, hm, hjs, hP⟩
      · intro h
        obtain ⟨j, hm, hjs, hP⟩ := (exists_itemsSet_same c.items hnd it _ hit_mem g2 g3 s
          (fun o => objIsSpatial o = false)).mp h
        exact (hV s).mpr ⟨j, hm, hjs, hP⟩

theorem idxInv_step (c : Collection) (op : Op) (hI : idxInv c) :
    idxInv (Collection.applyOp c op) := by
  cases op with
  | set id obj fn vals => exact idxInv_set c hI id obj fn vals
  | del id => exact idxInv_del c hI id
  | sfield id name v => exact idxInv_sfield c hI id name v
  | sfields id names vals => exact idxInv_sfields c hI id names vals

theorem idxInv_run (packed : Bool) (ops : List Op) : idxInv (runOps packed ops) := by
  unfold runOps
  have h : ∀ (l : List Op) (c : Collection), idxInv c → idxInv (l.foldl Collection.applyOp c) := by
    intro l
    induction l with
    | nil => intro c hc; exact hc
    | cons op rest ih =>
      intro c hc
      exact ih _ (idxInv_step c op hc)
  exact h ops _ (idxInv_new packed)

/-!
Cursor traces (claims C5 and C7).  A query loop is embedded as a fold over
the candidate sequence, recording the arguments of every `cursor.Step` call
(the offset step at entry, then the per-candidate steps) and the ids yielded
to the callback.  The callback is a pure predicate on the id deciding
whether iteration continues.
-/

structure CTrace where
  alive : Bool
  count : Nat
  steps : List Nat
  yields : List String
deriving DecidableEq

/-- The common loop body of `Scan` and of the kNN callback of `Nearby`:
bump `count`, skip while `count <= offset`, then `cursor.Step(1)` and yield
to the callback.  A dead iteration (callback returned false) ends the scan. -/
def curStep (idOf : α → String) (offset : Nat) (pred : String → Bool)
    (st : CTrace) (x : α) : CTrace :=
  if st.alive = false then st
  else if st.count + 1 ≤ offset then { st with count := st.count + 1 }
  else { alive := pred (idOf x), count := st.count + 1,
         steps := st.steps ++ [1], yields := st.yields ++ [idOf x] }

/-- `Collection.Scan` (ascending) with a non-nil cursor of the given offset:
`cursor.Step(offset)` once at entry, then the loop over the id B-tree. -/
def Collection.scan (c : Collection) (offset : Nat) (pred : String → Bool) :
    CTrace :=
  c.items.foldl (curStep Itm.id offset pred) ⟨true, 0, [offset], []⟩

/-- The `o.Within(obj)` test of the `Within` callback, resolving the
candidate entry's item by id. -/
def withinMatch (c : Collection) (q : GeoObj) (e : QRect × String) : Bool :=
  match itemsGet c.items e.2 with
  | some it => objWithin it.obj q
  | none => false

/-- The non-sparse `Within` callback: bump `count`, skip while
`count <= offset`, `cursor.Step(1)` for EVERY candidate past the offset,
then test `o.Within(obj)` and only yield matches. -/
def withinStep (c : Collection) (q : GeoObj) (offset : Nat)
    (pred : String → Bool) (st : CTrace) (e : QRect × String) : CTrace :=
  if st.alive = false then st
  else if st.count + 1 ≤ offset then { st with count := st.count + 1 }
  else if withinMatch c q e then
    { alive := pred e.2, count := st.count + 1,
      steps := st.steps ++ [1], yields := st.yields ++ [e.2] }
  else { st with count := st.count + 1, steps := st.steps ++ [1] }

/-- Modelled from the spec: `rtree.Search` visits the index entries whose
stored rectangle intersects the query rectangle, in index order. -/
def searchCandidates (c : Collection) (r : QRect) : List (QRect × String) :=
  c.index.filter (fun e => rectIntersects e.1 r)

/-- `Collection.Within` (non-sparse) with a non-nil cursor: `Step(offset)`
once at entry, then the callback over the R-tree search candidates. -/
def Collection.within (c : Collection) (q : GeoObj) (offset : Nat)
    (pred : String → Bool) : CTrace :=
  (searchCandidates c (rectOf q)).foldl (withinStep c q offset pred)
    ⟨true, 0, [offset], []⟩

theorem curFold_steps (idOf : α → String) (offset : Nat) (pred : String → Bool)
    (l : List α) : ∀ st : CTrace,
    st.steps = offset :: List.replicate st.yields.length 1 →
    (l.foldl (curStep idOf offset pred) st).steps
      = offset :: List.replicate
          (l.foldl (curStep idOf offset pred) st).yields.length 1 := by
  induction l with
  | nil => intro st h; exact h
  | cons x xs ih =>
    intro st h
    rw [List.foldl_cons]
    apply ih
    unfold curStep
    by_cases ha : st.alive = false
    · rw [if_pos ha]
      exact h
    · rw [if_neg ha]
      by_cases hc : st.count + 1 ≤ offset
      · rw [if_pos hc]
        exact h
      · rw [if_neg hc]
        simp only [List.length_append, List.length_cons, List.length_nil]
        rw [h]
        rw [List.replicate_succ' st.yields.length 1]
        rfl

theorem curFold_true (idOf : α → String) (offset : Nat) (l : List α) :
    ∀ (cnt : Nat) (steps : List Nat) (ys : List String),
    l.foldl (curStep idOf offset (fun _ => true)) ⟨true, cnt, steps, ys⟩
      = ⟨true, cnt + l.length,
          steps ++ List.replicate (l.length - (offset - cnt)) 1,
          ys ++ (l.drop (offset - cnt)).map idOf⟩ := by
  induction l with
  | nil =>
    intro cnt steps ys
    simp
  | cons x xs ih =>
    intro cnt steps ys
    rw [List.foldl_cons]
    unfold curStep
    rw [if_neg (by simp)]
    by_cases hc : cnt + 1 ≤ offset
    · rw [if_pos hc]
      have h1 : (x :: xs).length - (offset - cnt) = xs.length - (offset - (cnt + 1)) := by
        simp only [List.length_cons]
        omega
      have h2 : (x :: xs).drop (offset - cnt) = xs.drop (offset - (cnt + 1)) := by
        have he : offset - cnt = (offset - (cnt + 1)) + 1 := by omega
        rw [he]
        rfl
      rw [h1, h2]
      simp only [List.length_cons]
      have h4 : cnt + (xs.length + 1) = cnt + 1 + xs.length := by omega
      rw [h4]
      exact ih (cnt + 1) steps ys
    · rw [if_neg hc]
      have h0 : offset - cnt = 0 := by omega
      have h1 : offset - (cnt + 1) = 0 := by omega
      have h2 : steps ++ [1] ++ List.replicate xs.length 1
          = steps ++ List.replicate (xs.length + 1) 1 := by
        rw [List.append_assoc, List.replicate_succ]
        rfl
      have h3 : ys ++ [idOf x] ++ xs.map idOf = ys ++ (x :: xs).map idOf := by
        rw [List.append_assoc]
        rfl
      rw [h0]
      simp only [List.drop_zero, List.length_cons, Nat.sub_zero]
      rw [← h2, ← h3]
      have h4 : cnt + (xs.length + 1) = cnt + 1 + xs.length := by omega
      rw [h4]
      have := ih (cnt + 1) (steps ++ [1]) (ys ++ [idOf x])
      rw [h1] at this
      simp only [List.drop_zero] at this
      exact this

theorem withinFold_true (c : Collection) (q : GeoObj) (offset : Nat)
    (l : List (QRect × String)) :
    ∀ (cnt : Nat) (steps : List Nat) (ys : List String),
    l.foldl (withinStep c q offset (fun _ => true)) ⟨true, cnt, steps, ys⟩
      = ⟨true, cnt + l.length,
          steps ++ List.replicate (l.length - (offset - cnt)) 1,
          ys ++ ((l.drop (offset - cnt)).filter (withinMatch c q)).map Prod.snd⟩ := by
  induction l with
  | nil =>
    intro cnt steps ys
    simp
  | cons x xs ih =>
    intro cnt steps ys
    rw [List.foldl_cons]
    unfold withinStep
    rw [if_neg (by simp)]
    by_cases hc : cnt + 1 ≤ offset
    · rw [if_pos hc]
      have h1 : (x :: xs).length - (offset - cnt) = xs.length - (offset - (cnt + 1)) := by
        simp only [List.length_cons]
        omega
      have h2 : (x :: xs).drop (offset - cnt) = xs.drop (offset - (cnt + 1)) := by
        have he : offset - cnt = (offset - (cnt + 1)) + 1 := by omega
        rw [he]
        rfl
      rw [h1, h2]
      simp only [List.length_cons]
      have h4 : cnt + (xs.length + 1) = cnt + 1 + xs.length := by omega
      rw [h4]
      exact ih (cnt + 1) steps ys
    · have h0 : offset - cnt = 0 := by omega
      have h1 : offset - (cnt + 1) = 0 := by omega
      have h2 : steps ++ [1] ++ List.replicate xs.length 1
          = steps ++ List.replicate (xs.length + 1) 1 := by
        rw [List.append_assoc, List.replicate_succ]
        rfl
      by_cases hm : withinMatch c q x = true
      · rw [if_neg hc, if_pos hm]
        rw [h0]
        simp only [List.drop_zero, List.length_cons, Nat.sub_zero]
        have h3 : ys ++ [x.2] ++ ((xs.filter (withinMatch c q)).map Prod.snd)
            = ys ++ (((x :: xs).filter (withinMatch c q)).map Prod.snd) := by
          rw [List.append_assoc, List.filter_cons_of_pos hm]
          rfl
        rw [← h2, ← h3]
        have h4 : cnt + (xs.length + 1) = cnt + 1 + xs.length := by omega
        rw [h4]
        have := ih (cnt + 1) (steps ++ [1]) (ys ++ [x.2])
        rw [h1] at this
        simp only [List.drop_zero] at this
        exact this
      · rw [if_neg hc, if_neg hm]
        rw [h0]
        simp only [List.drop_zero, List.length_cons, Nat.sub_zero]
        have h3 : ((x :: xs).filter (withinMatch c q)).map Prod.snd
            = (xs.filter (withinMatch c q)).map Prod.snd := by
          rw [List.filter_cons_of_neg (by simpa using hm)]
        rw [← h2, h3]
        have h4 : cnt + (xs.length + 1) = cnt + 1 + xs.length := by omega
        rw [h4]
        have := ih (cnt + 1) (steps ++ [1]) ys
        rw [h1] at this
        simp only [List.drop_zero] at this
        exact this

/-!
`Collection.Nearby` (claim C7).  The kNN enumeration of the R-tree is
external to the collection; it is modelled from the spec as visiting index
entries sorted by minimum box distance from the query point.
-/

/-- Modelled from the spec: squared minimum distance from a point to a
rectangle (the `boxDist` ordering key of the kNN traversal). -/
def boxDist (p : ℚ × ℚ) (r : QRect) : ℚ :=
  (max (max (r.minX - p.1) 0) (p.1 - r.maxX)) * (max (max (r.minX - p.1) 0) (p.1 - r.maxX))
    + (max (max (r.minY - p.2) 0) (p.2 - r.maxY)) * (max (max (r.minY - p.2) 0) (p.2 - r.maxY))

/-- The kNN visit order: entries with smaller box distance first. -/
def nearbyLe (p : ℚ × ℚ) (a b : QRect × String) : Prop :=
  boxDist p a.1 ≤ boxDist p b.1

instance (p : ℚ × ℚ) : DecidableRel (nearbyLe p) :=
  fun a b => inferInstanceAs (Decidable (boxDist p a.1 ≤ boxDist p b.1))

instance (p : ℚ × ℚ) : IsTotal (QRect × String) (nearbyLe p) :=
  ⟨fun _ _ => le_total _ _⟩

instance (p : ℚ × ℚ) : IsTrans (QRect × String) (nearbyLe p) :=
  ⟨fun _ _ _ hab hbc => le_trans hab hbc⟩

/-- Modelled from the spec: `rtree.Nearby` visits the index entries in
non-decreasing box distance from the query point. -/
def nearbyCandidates (c : Collection) (p : ℚ × ℚ) : List (QRect × String) :=
  c.index.insertionSort (nearbyLe p)

/-- Modelled from the spec: `geo.RectFromCenter`, the outer rectangle of a
circle of the given radius; at zero radius it degenerates to the center
point. -/
def rectFromCenter (cx cy meters : ℚ) : QRect :=
  ⟨cx - meters, cy - meters, cx + meters, cy + meters⟩

/-- The fast-fail probe of `Nearby`: only for a circle target with
`meters > 0`, and only when the circle's outer rectangle holds no
candidate. -/
def nearbyFastFail (c : Collection) : GeoObj → Bool
  | .circle cx cy meters _ =>
    decide (meters > 0) && (searchCandidates c (rectFromCenter cx cy meters)).isEmpty
  | _ => false

/-- `Collection.Nearby` with a non-nil cursor: the probe first (before any
cursor call), then `Step(offset)` at entry and the kNN loop, which steps the
cursor once per visited candidate and yields every one of them. -/
def Collection.nearby (c : Collection) (target : GeoObj) (offset : Nat)
    (pred : String → Bool) : CTrace :=
  if nearbyFastFail c target then ⟨true, 0, [], []⟩
  else (nearbyCandidates c (objCenter target)).foldl
    (curStep Prod.snd offset pred) ⟨true, 0, [offset], []⟩

theorem nearbyCandidates_sorted (c : Collection) (p : ℚ × ℚ) :
    List.Sorted (nearbyLe p) (nearbyCandidates c p) :=
  List.sorted_insertionSort (nearbyLe p) c.index

theorem nearbyFastFail_zero (c : Collection) (cx cy : ℚ) (n : Nat) :
    nearbyFastFail c (GeoObj.circle cx cy 0 n) = false := by
  simp [nearbyFastFail]

/-!
The claims.
-/

/-- Claim C1 (corrected): decoding the encoding of a finite float64 returns
the value and an empty remainder — except at `f = -2^63`, where the integer
fast path overflows (`int64(f) * -1` stays `-2^63`), the value is emitted as
the single header byte `0x10` and decodes to `-0.0`.  The amended round trip
holds for every representable value other than `-2^63`. -/
theorem codec_roundtrip (q : ℚ) (hfin : finFloat 52 11 q = true)
    (hq : q ≠ -(2 ^ 63)) :
    readPacked (appendPacked [] q) = ([], q) :=
  readPacked_appendPacked q hfin hq

set_option maxRecDepth 100000 in
/-- Witness for the amended round trip at the representable value `3`. -/
theorem codec_roundtrip_witness :
    finFloat 52 11 3 = true ∧ readPacked (appendPacked [] 3) = ([], 3) :=
  ⟨by decide, codec_roundtrip 3 (by decide) (by norm_num)⟩

set_option maxRecDepth 100000 in
/-- Counterexample to the unamended claim: `-2^63` is a finite float64 value
but round-trips to `-0.0`. -/
theorem codec_roundtrip_cex :
    finFloat 52 11 (-9223372036854775808 : ℚ) = true ∧
      readPacked (appendPacked [] (-9223372036854775808 : ℚ)) = ([], 0) ∧
      (0 : ℚ) ≠ -9223372036854775808 := by
  refine ⟨by decide, ?_, by norm_num⟩
  norm_num [appendPacked, readPacked, intPayload, goInt64, qtrunc, packWhole,
    magOf, signedBit, wrap64, byteOfInt]

/-- Claim C3 (corrected): a stored item is in the R-tree iff its object is
spatial and non-empty, and in the value B-tree iff its object is
non-spatial.  The spec's "otherwise it appears in the value B-tree" is wrong
for a spatial-but-empty object, which `addItem` puts in NEITHER secondary
tree. -/
theorem index_membership (packed : Bool) (ops : List Op) (it : Itm)
    (hmem : it ∈ (runOps packed ops).items) :
    ((∃ r, (r, it.id) ∈ (runOps packed ops).index) ↔
        (objIsSpatial it.obj = true ∧ objEmpty it.obj = false)) ∧
      (it.id ∈ (runOps packed ops).values ↔ objIsSpatial it.obj = false) := by
  obtain ⟨hnd, _, _, hX, hV⟩ := idxInv_run packed ops
  constructor
  · rw [hX it.id]
    constructor
    · intro ⟨j, hm, hjs, hP⟩
      have hj : j = it := nodup_id_unique _ hnd j it hm hmem hjs
      subst hj
      exact hP
    · intro hP
      exact ⟨it, hmem, rfl, hP⟩
  · rw [hV it.id]
    constructor
    · intro ⟨j, hm, hjs, hP⟩
      have hj : j = it := nodup_id_unique _ hnd j it hm hmem hjs
      subst hj
      exact hP
    · intro hP
      exact ⟨it, hmem, rfl, hP⟩

/-- Witness for the index-membership invariant on a one-item collection. -/
theorem index_membership_witness :
    ((∃ r, (r, (Itm.new "b" (GeoObj.spatial ⟨0, 0, 1, 1⟩ 1 false) false).id)
          ∈ (runOps false [Op.set "b" (GeoObj.spatial ⟨0, 0, 1, 1⟩ 1 false) none []]).index) ↔
        (objIsSpatial (Itm.new "b" (GeoObj.spatial ⟨0, 0, 1, 1⟩ 1 false) false).obj = true ∧
          objEmpty (Itm.new "b" (GeoObj.spatial ⟨0, 0, 1, 1⟩ 1 false) false).obj = false)) ∧
      ((Itm.new "b" (GeoObj.spatial ⟨0, 0, 1, 1⟩ 1 false) false).id
          ∈ (runOps false [Op.set "b" (GeoObj.spatial ⟨0, 0, 1, 1⟩ 1 false) none []]).values ↔
        objIsSpatial (Itm.new "b" (GeoObj.spatial ⟨0, 0, 1, 1⟩ 1 false) false).obj = false) :=
  index_membership false [Op.set "b" (GeoObj.spatial ⟨0, 0, 1, 1⟩ 1 false) none []]
    (Itm.new "b" (GeoObj.spatial ⟨0, 0, 1, 1⟩ 1 false) false)
    (List.mem_singleton_self _)

/-- Counterexample to the unamended claim: a stored spatial-but-empty item is
in neither the R-tree nor the value B-tree. -/
theorem index_membership_cex :
    (Itm.new "a" (GeoObj.spatial ⟨0, 0, 0, 0⟩ 0 true) false)
        ∈ (runOps false [Op.set "a" (GeoObj.spatial ⟨0, 0, 0, 0⟩ 0 true) none []]).items ∧
      objIsSpatial (GeoObj.spatial ⟨0, 0, 0, 0⟩ 0 true) = true ∧
      objEmpty (GeoObj.spatial ⟨0, 0, 0, 0⟩ 0 true) = true ∧
      (runOps false [Op.set "a" (GeoObj.spatial ⟨0, 0, 0, 0⟩ 0 true) none []]).index = [] ∧
      (runOps false [Op.set "a" (GeoObj.spatial ⟨0, 0, 0, 0⟩ 0 true) none []]).values = [] :=
  ⟨List.mem_singleton_self _, rfl, rfl, rfl, rfl⟩

/-- Claim C4 (corrected): `SetField(i, 0)` at an index at or past the current
field count is a no-op (returns false, leaves the stored fields unchanged)
in both the packed and the unpacked layout of the modern item — but the
legacy `collection/item/item.go` `Item.SetField` has no zero guard and grows
the vector with the padding and the trailing zero, returning true. -/
theorem setField_zero_canonical (data : List Nat) (vals : List ℚ) (k j : Nat) :
    packedSetField data (countPacked data + k) 0 = (data, false) ∧
      unpackedSetField vals (vals.length + j) 0 = (vals, false) ∧
      legacySetField vals (vals.length + j) 0
        = (vals ++ List.replicate j 0 ++ [0], true) :=
  ⟨packedSetField_zero_noop data k, unpackedSetField_zero_noop vals j,
    legacySetField_grows vals j⟩

/-- Counterexample to the unamended claim: the legacy item's
`SetField(0, 0)` on an empty field vector appends a zero and returns true,
while the modern unpacked layout refuses. -/
theorem setField_zero_canonical_cex :
    legacySetField [] 0 0 = ([0], true) ∧
      unpackedSetField [] 0 0 = ([], false) := by
  constructor
  · rfl
  · rfl

/-- Claim C5 (corrected): with a non-nil cursor, `Scan` steps the cursor by
the offset once at entry and then by one exactly once per yielded result
(for any callback).  `Within` steps the cursor by the offset once at entry
but then by one per R-tree candidate examined past the offset — including
candidates that fail the `Within` test and are never yielded — so with an
always-continuing callback its step list is
`offset :: replicate (candidates - offset) 1` while only the matching
candidates are yielded.  The offset skip likewise counts candidates, not
matching results. -/
theorem cursor_contract (c : Collection) (offset : Nat) (pred : String → Bool)
    (q : GeoObj) :
    ((Collection.scan c offset pred).steps
        = offset :: List.replicate (Collection.scan c offset pred).yields.length 1) ∧
      ((Collection.scan c offset (fun _ => true)).yields
        = (c.items.drop offset).map Itm.id) ∧
      ((Collection.within c q offset (fun _ => true)).steps
        = offset :: List.replicate ((searchCandidates c (rectOf q)).length - offset) 1) ∧
      ((Collection.within c q offset (fun _ => true)).yields
        = (((searchCandidates c (rectOf q)).drop offset).filter
            (withinMatch c q)).map Prod.snd) := by
  refine ⟨?_, ?_, ?_, ?_⟩
  · exact curFold_steps Itm.id offset pred c.items ⟨true, 0, [offset], []⟩ rfl
  · unfold Collection.scan
    rw [curFold_true Itm.id offset c.items 0 [offset] []]
    simp
  · unfold Collection.within
    rw [withinFold_true c q offset (searchCandidates c (rectOf q)) 0 [offset] []]
    simp
  · unfold Collection.within
    rw [withinFold_true c q offset (searchCandidates c (rectOf q)) 0 [offset] []]
    simp

/-- Counterexample to the unamended claim: one candidate intersects the
query rectangle but is not within the query object, so `Within` calls
`Step(1)` once (steps `[0, 1]`) while yielding nothing. -/
theorem cursor_contract_cex :
    (Collection.within
        (runOps false [Op.set "a" (GeoObj.spatial ⟨0, 0, 2, 2⟩ 1 false) none []])
        (GeoObj.spatial ⟨1, 1, 3, 3⟩ 0 false) 0 (fun _ => true)).steps = [0, 1] ∧
      (Collection.within
        (runOps false [Op.set "a" (GeoObj.spatial ⟨0, 0, 2, 2⟩ 1 false) none []])
        (GeoObj.spatial ⟨1, 1, 3, 3⟩ 0 false) 0 (fun _ => true)).yields = [] := by
  constructor
  · rfl
  · rfl

/-- Claim C7 (corrected): `Nearby` yields items in non-decreasing box
distance from the target's center, but the fast-fail probe only runs for a
circle with `meters > 0`: a zero-radius circle never fast-fails, the full
kNN runs, and over a non-empty collection the callback IS invoked. -/
theorem nearby_ordering (c : Collection) (target : GeoObj) (offset : Nat)
    (cx cy : ℚ) (n : Nat) :
    List.Sorted (nearbyLe (objCenter target)) (nearbyCandidates c (objCenter target)) ∧
      nearbyFastFail c (GeoObj.circle cx cy 0 n) = false ∧
      (nearbyFastFail c target = false →
        (Collection.nearby c target offset (fun _ => true)).yields
          = ((nearbyCandidates c (objCenter target)).drop offset).map Prod.snd) := by
  refine ⟨nearbyCandidates_sorted c (objCenter target),
    nearbyFastFail_zero c cx cy n, ?_⟩
  intro hff
  unfold Collection.nearby
  rw [if_neg (by simp [hff])]
  rw [curFold_true Prod.snd offset (nearbyCandidates c (objCenter target)) 0 [offset] []]
  simp

/-- Counterexample to the unamended claim: a zero-radius circle target over
a one-item collection yields that item — the result set is not empty. -/
theorem nearby_ordering_cex :
    (Collection.nearby
        (runOps false [Op.set "a" (GeoObj.spatial ⟨0, 0, 1, 1⟩ 1 false) none []])
        (GeoObj.circle 5 5 0 0) 0 (fun _ => true)).yields = ["a"] := by
  rfl

/-- Claim C8 (confirmed): `appendPacked` encodes `0.0` as the single byte
`0x00`, and an integer-valued float64 to 1, 2, 3 or 4 bytes by the magnitude
bins `<= 15`, `<= 4095`, `<= 1048575`, `<= 268435455`. -/
theorem codec_size_table :
    appendPacked [] 0 = [0] ∧
      ∀ n : ℤ, n ≠ 0 → n.natAbs ≤ 268435455 →
        (appendPacked [] ((n : ℤ) : ℚ)).length
          = (if n.natAbs ≤ 15 then 1 else if n.natAbs ≤ 4095 then 2
              else if n.natAbs ≤ 1048575 then 3 else 4) := by
  constructor
  · norm_num [appendPacked, goInt64, qtrunc, packWhole, magOf, signedBit, wrap64, byteOfInt]
  · intro n h0 h29
    exact appendPacked_intCast_len n h0 h29

/-- Claim C9 (confirmed): the `Fields` handle over an item is nil exactly
when the item's field byte-length is zero; `Get` on a nil handle returns
`0.0` and `ForEach` on a nil handle makes zero callback invocations; and
`Collection.Get` returns the handle `itemFields` builds for the stored item
(nil when the id is absent). -/
theorem fields_handle :
    (∀ j : Itm, (itemFields (some j) = none ↔ j.fieldsLen = 0)) ∧
      (∀ i : Nat, fieldsGet none i = 0) ∧
      (∀ n : Int, fieldsForEachList none n = []) ∧
      (∀ (c : Collection) (id : String) (it : Itm), itemsGet c.items id = some it →
        (Collection.get c id).2.1 = itemFields (some it)) ∧
      (∀ (c : Collection) (id : String), itemsGet c.items id = none →
        (Collection.get c id).2.1 = none) :=
  ⟨itemFields_none_iff, fun _ => rfl, fun _ => rfl,
    fun c id it h => by simp [Collection.get, h],
    fun c id h => by simp [Collection.get, h]⟩

/-- Claim C10 (confirmed): `setFields` with fewer values than names behaves
exactly as if the value list were padded with `0.0` to the names' length —
each name past the values receives `0.0` through the same `setField` path —
and every listed name ends up in the field map. -/
theorem setFields_short_values (names : List String) (c : Collection) (it : Itm)
    (vals : List ℚ) (uw : Bool) :
    Collection.setFields c it names vals uw
        = Collection.setFields c it names
            (vals ++ List.replicate (names.length - vals.length) 0) uw ∧
      ∀ nm ∈ names, nm ∈ (Collection.setFields c it names vals uw).1.fieldMap :=
  ⟨setFields_pad names c it vals uw, (setFields_fieldMap names c it vals uw).1⟩

/-- Witness for the field-inheritance theorem on a one-item collection. -/
theorem set_inherits_witness :
    itemsGet (Collection.set (runOps false [Op.set "a" (GeoObj.strval "v") none []])
        "a" (GeoObj.strval "w") none []).1.items "a"
      = some ⟨"a", GeoObj.strval "w", (Itm.new "a" (GeoObj.strval "v") false).store⟩ ∧
    ∀ (fn : Option (List String)) (vals : List ℚ),
      (Collection.set (runOps false [Op.set "a" (GeoObj.strval "v") none []])
          "a" (GeoObj.strval "w") fn vals).2.2
        = (Collection.setMerge
            (Collection.delItem (runOps false [Op.set "a" (GeoObj.strval "v") none []])
              (Itm.new "a" (GeoObj.strval "v") false))
            (inheritFields (Itm.new "a" (GeoObj.strval "w")
              (runOps false [Op.set "a" (GeoObj.strval "v") none []]).packed)
              (some (Itm.new "a" (GeoObj.strval "v") false))) fn vals).2 :=
  set_inherits (runOps false [Op.set "a" (GeoObj.strval "v") none []])
    "a" (GeoObj.strval "w") (Itm.new "a" (GeoObj.strval "v") false) rfl rfl
